import Mathlib

/-!
Verification of the core of `bluesky_post.py` (email-transparency-bot):
the text formatter in `post_to_bluesky`, the chunk splitter `split_text`,
and the threaded publisher `post_chunks`.

Strings are modelled as `List Char`; the remote Bluesky client is modelled
as a response oracle `f : Nat → Except E H` giving, for each successive
`send_post` call, either the returned post handle or the raised error
(`models.create_strong_ref` is modelled as the identity on handles, since a
strong ref carries exactly the identity of the post it refers to).
-/

namespace BlueskyPost

/-- Python's whitespace predicate: the character set matched by `\s` in a
`re` pattern over `str`, which is also the set stripped by `str.strip()`.
(CPython `Py_UNICODE_ISSPACE`.) -/
def isPySpace (c : Char) : Bool :=
  c == ' ' || c == '\t' || c == '\n' || c == '\r' || c == '\x0b' || c == '\x0c' ||
  c == '\x1c' || c == '\x1d' || c == '\x1e' || c == '\x1f' || c == '\x85' ||
  c == '\xa0' || c == ' ' ||
  ((' ' ≤ c && c ≤ ' ') : Bool) ||
  c == ' ' || c == ' ' || c == ' ' || c == ' ' || c == '　'

/-- The characters removed from the start of every line by
`re.sub(r'^[ \t]+', '', post_text, flags=re.MULTILINE)` (bluesky_post.py line 72). -/
def isHT (c : Char) : Bool :=
  c == ' ' || c == '\t'

/-- The character class of the blank-line regex on bluesky_post.py line 74:
whitespace, U+200B..U+200D (zero-width space / non-joiner / joiner),
U+FEFF (byte-order mark), U+00AD (soft hyphen), and the two characters that
appear literally in the source: U+034F (combining grapheme joiner) and
U+200C (zero-width non-joiner, already inside the range). -/
def classChar (c : Char) : Bool :=
  isPySpace c || (('​' ≤ c && c ≤ '‍') : Bool) ||
  c == '﻿' || c == '\xad' || c == '͏'

/-- The invisible-character set named by the specification: whitespace plus
zero-width space/non-joiner/joiner, byte-order mark and soft hyphen. -/
def claimChar (c : Char) : Bool :=
  isPySpace c || (('​' ≤ c && c ≤ '‍') : Bool) ||
  c == '﻿' || c == '\xad'

/-- Python `str.strip()`: remove leading and trailing whitespace. -/
def pyStrip (l : List Char) : List Char :=
  List.rdropWhile isPySpace (List.dropWhile isPySpace l)

/-! ## The threaded publisher (`post_chunks`, bluesky_post.py lines 100-117) -/

/-- The `reply_to` payload built on line 110 of bluesky_post.py:
`models.AppBskyFeedPost.ReplyRef(parent=parent_ref, root=root_ref)`. -/
structure ReplyRef (H : Type) where
  root : H
  parent : H
deriving DecidableEq

/-- One observable effect of `post_chunks`: a `time.sleep` (line 109) or a
`client.send_post` call (lines 105 and 111) with its text and optional
reply reference. -/
inductive PostEvent (H : Type) where
  | delay (seconds : Nat)
  | post (text : List Char) (replyTo : Option (ReplyRef H))
deriving DecidableEq

/-- Whether an event is a remote `send_post` call. -/
def isPost {H : Type} : PostEvent H → Bool
  | .post _ _ => true
  | .delay _ => false

/-- Errors surfaced by `post_chunks`: the `ValueError("No content to post.")`
of line 103, or an exception raised by a `send_post` call. -/
inductive PubError (E : Type) where
  | noContent
  | api (e : E)
deriving DecidableEq

/-- The loop of bluesky_post.py lines 108-112: for each remaining chunk,
sleep 5 seconds, build the reply reference from the fixed root and the
current parent, call `send_post`, and make the returned handle the new
parent.  `k` is the index of the next remote call in the oracle `f`. -/
def postLoop {H E : Type} (f : Nat → Except E H) (root : H) :
    Nat → H → List (List Char) → List (PostEvent H) × Except (PubError E) Unit
  | _, _, [] => ([], .ok ())
  | k, parent, chunk :: rest =>
    match f k with
    | .ok h =>
      let t := postLoop f root (k + 1) h rest
      (.delay 5 :: .post chunk (some ⟨root, parent⟩) :: t.1, t.2)
    | .error e => ([.delay 5, .post chunk (some ⟨root, parent⟩)], .error (.api e))

/-- bluesky_post.py lines 101-117 (`post_chunks` after `split_text`):
fail on an empty chunk list with no remote call; otherwise post the first
chunk with no reply reference, use its handle as both root and first
parent, run the reply loop, and return the number of chunks on success.
Any `send_post` failure aborts the rest and is surfaced. -/
def post_chunks_loop {H E : Type} (f : Nat → Except E H) (chunks : List (List Char)) :
    List (PostEvent H) × Except (PubError E) Nat :=
  match chunks with
  | [] => ([], .error .noContent)
  | c0 :: rest =>
    match f 0 with
    | .error e => ([.post c0 none], .error (.api e))
    | .ok h0 =>
      let t := postLoop f h0 1 h0 rest
      (.post c0 none :: t.1,
       match t.2 with
       | .ok _ => .ok chunks.length
       | .error e => .error e)

/-- The number of remote calls that completed successfully, given that the
first `n` calls of the oracle `f` were attempted. -/
def postsMade {H E : Type} (f : Nat → Except E H) (n : Nat) : Nat :=
  (List.range n).countP (fun k => (f k).toBool)

/-- The event trace the specification demands for a fully successful
thread, written from the spec's words (§4.3 / §8): the first chunk is
posted with no reply reference; every later chunk is preceded by a fixed
5-second delay and posted with a reply reference whose root is the handle
of call 1 and whose parent is the handle of the immediately preceding
call. -/
def threadTraceSpec {H : Type} (f : Nat → H) : List (List Char) → List (PostEvent H)
  | [] => []
  | c0 :: rest =>
    .post c0 none ::
      (rest.enumFrom 1).flatMap
        (fun p => [.delay 5, .post p.2 (some ⟨f 0, f (p.1 - 1)⟩)])

theorem postLoop_all_ok {H E : Type} (f : Nat → H) (root : H) :
    ∀ (rest : List (List Char)) (k : Nat),
      postLoop (fun i => (.ok (f i) : Except E H)) root k (f (k - 1)) rest =
        ((rest.enumFrom k).flatMap
          (fun p => [.delay 5, .post p.2 (some ⟨root, f (p.1 - 1)⟩)]), .ok ()) := by
  intro rest
  induction rest with
  | nil => intro k; rfl
  | cons c cs ih =>
    intro k
    have hk : f ((k + 1) - 1) = f k := by simp
    have h2 := ih (k + 1)
    rw [hk] at h2
    simp [postLoop, List.enumFrom, List.flatMap_cons, h2]

/-- C1: for a chunk sequence of length `n ≥ 3` whose remote calls all
succeed, publishing issues exactly `n` remote calls in order; call 1
carries no reply reference; every call `i ≥ 2` carries a reply reference
whose root is the handle of call 1 and whose parent is the handle of call
`i-1`; a fixed 5-second delay immediately precedes every call `i ≥ 2` and
no delay precedes call 1; the reported count is `n`. -/
theorem post_chunks_thread_protocol {H E : Type} (f : Nat → H) (chunks : List (List Char))
    (hlen : 3 ≤ chunks.length) :
    post_chunks_loop (fun k => (.ok (f k) : Except E H)) chunks =
      (threadTraceSpec f chunks, .ok chunks.length) := by
  cases chunks with
  | nil => simp at hlen
  | cons c0 rest =>
    have h := postLoop_all_ok (E := E) f (f 0) rest 1
    simp only [Nat.sub_self] at h
    simp [post_chunks_loop, threadTraceSpec, h]

theorem post_chunks_thread_protocol_witness :
    3 ≤ (["a".data, "b".data, "c".data] : List (List Char)).length ∧
    post_chunks_loop (fun k => (.ok k : Except Unit Nat)) ["a".data, "b".data, "c".data] =
      (threadTraceSpec (fun k => k) ["a".data, "b".data, "c".data], .ok 3) :=
  ⟨by decide, post_chunks_thread_protocol (fun k => k) _ (by decide)⟩

/-- C2: with 3 chunks, when the remote call for chunk 2 fails, `publish`
surfaces that failure, never attempts the call for chunk 3 (exactly 2
remote calls appear in the trace, and the already-made first post stays in
the trace, unretried and not rolled back), and the successful count is 1. -/
theorem post_chunks_midstream_failure {H E : Type} (f : Nat → Except E H)
    (c1 c2 c3 : List Char) (h0 : H) (err : E)
    (hf0 : f 0 = .ok h0) (hf1 : f 1 = .error err) :
    post_chunks_loop f [c1, c2, c3] =
      ([.post c1 none, .delay 5, .post c2 (some ⟨h0, h0⟩)], .error (.api err)) ∧
    (post_chunks_loop f [c1, c2, c3]).1.countP isPost = 2 ∧
    postsMade f 2 = 1 := by
  refine ⟨?_, ?_, ?_⟩
  · simp [post_chunks_loop, postLoop, hf0, hf1]
  · simp [post_chunks_loop, postLoop, hf0, hf1, List.countP, List.countP.go, isPost]
  · simp [postsMade, List.range_succ, hf0, hf1, List.countP_cons, Except.toBool]

theorem post_chunks_midstream_failure_witness :
    ((fun k => if k = 0 then .ok 7 else .error 3 : Nat → Except Nat Nat) 0 = .ok 7) ∧
    post_chunks_loop (fun k => if k = 0 then .ok 7 else .error 3)
        ["a".data, "b".data, "c".data] =
      ([.post "a".data none, .delay 5, .post "b".data (some ⟨7, 7⟩)], .error (.api 3)) :=
  ⟨rfl,
   (post_chunks_midstream_failure (fun k => if k = 0 then .ok 7 else .error 3)
     "a".data "b".data "c".data 7 3 rfl rfl).1⟩

/-- C7: publishing an empty chunk sequence fails with the empty-content
error and issues zero remote calls. -/
theorem post_chunks_empty_fails {H E : Type} (f : Nat → Except E H) :
    post_chunks_loop f [] = (([] : List (PostEvent H)), .error .noContent) ∧
    (post_chunks_loop f []).1.countP isPost = 0 :=
  ⟨rfl, rfl⟩

/-! ## The chunk splitter (`split_text`, bluesky_post.py lines 119-146) -/

/-- Python `chunk.rfind(' ')` (line 140): the highest index of a space in
`l`, or `-1` when there is none. -/
def rfindSpace (l : List Char) : Int :=
  match l.reverse.findIdx? (· == ' ') with
  | some j => ((l.length - 1 - j : Nat) : Int)
  | none => -1

/-- The cut position chosen by one iteration of the `split_text` loop
(lines 136-143): tentatively `start + max_chunk`; if that window does not
reach the end of the text, and `last_space > max_chunk - 50` where
`last_space = chunk.rfind(' ') + 1` (a Python `int` comparison, so the
right side may be negative), the cut moves to `start + last_space`. -/
def splitChunkEnd (fullText : List Char) (maxChunk start : Nat) : Nat :=
  if start + maxChunk < fullText.length then
    if (maxChunk : Int) - 50 < rfindSpace ((fullText.drop start).take maxChunk) + 1 then
      start + (rfindSpace ((fullText.drop start).take maxChunk) + 1).toNat
    else start + maxChunk
  else start + maxChunk

/-- The `while start < len(full_text)` loop of lines 134-145, with explicit
fuel (each Python iteration appends `chunk.strip()` and sets
`start = end`; the loop does not terminate on its own when the cut ever
equals `start`, which the fuel bounds model by truncation). -/
def splitGo (fullText : List Char) (maxChunk : Nat) : Nat → Nat → List (List Char)
  | 0, _ => []
  | fuel + 1, start =>
    if start < fullText.length then
      pyStrip ((fullText.drop start).take (splitChunkEnd fullText maxChunk start - start)) ::
        splitGo fullText maxChunk fuel (splitChunkEnd fullText maxChunk start)
    else []

/-- `split_text(full_text, max_chunk)` (bluesky_post.py lines 119-146). -/
def split_text (fullText : List Char) (maxChunk : Nat) : List (List Char) :=
  splitGo fullText maxChunk fullText.length 0

/-! ## The formatter (`post_to_bluesky`, bluesky_post.py lines 70-81) -/

/-- The f-string of line 71:
`f"📧 From: {sender}\nSubject: {subject}\nSent: {date}\n{body}"`. -/
def headerText (sender subject date body : List Char) : List Char :=
  "📧 From: ".data ++ sender ++ "\nSubject: ".data ++ subject ++
    "\nSent: ".data ++ date ++ '\n' :: body

/-- Split into newline-separated lines (every string has at least one
line; a trailing newline yields a final empty line), used to model the
per-line behaviour of `re.MULTILINE` anchors. -/
def linesCL : List Char → List (List Char)
  | [] => [[]]
  | c :: rest =>
    if c = '\n' then [] :: linesCL rest
    else
      match linesCL rest with
      | [] => [[c]]
      | l :: ls => (c :: l) :: ls

/-- Joins lines back with newlines; inverse of `linesCL`. -/
def unlinesCL : List (List Char) → List Char
  | [] => []
  | [l] => l
  | l :: ls => l ++ '\n' :: unlinesCL ls

/-- Line 72: `re.sub(r'^[ \t]+', '', post_text, flags=re.MULTILINE)`.
The anchored class `[ \t]` cannot cross a newline, so the substitution
removes the maximal run of spaces and tabs at the start of every line. -/
def stripLineIndent (t : List Char) : List Char :=
  unlinesCL ((linesCL t).map (List.dropWhile isHT))

/-- One match attempt of the regex of line 74 (`^[class]+$`, re.MULTILINE)
at a line start: the greedy class run backtracks to the largest end offset
`e ≥ 1` such that the consumed characters are all in the class (`e` at
most the maximal run length) and position `e` is at end-of-string or
immediately before a newline (where `$` matches).  `none` when the regex
does not match at this position. -/
def matchEnd (s : List Char) : Option Nat :=
  (List.range ((s.takeWhile classChar).length + 1)).reverse.find? (fun e =>
    decide (1 ≤ e) && (decide (e = s.length) || s.get? e == some '\n'))

/-- The left-to-right scan of `re.sub` for the blank-line regex of line
74: at each position where `^` holds (tracked by `atStart`), attempt a
match; on a match of length `e` drop the consumed characters (substituting
the empty string) and resume at the match end, where `^` holds exactly
when the last consumed character was a newline; otherwise emit one
character and move on.  Fuel decreases once per step; every step consumes
at least one character, so `s.length` fuel suffices. -/
def scanBlank : Nat → Bool → List Char → List Char
  | 0, _, _ => []
  | _ + 1, _, [] => []
  | fuel + 1, atStart, c :: rest =>
    if atStart && classChar c then
      match matchEnd (c :: rest) with
      | some e =>
        scanBlank fuel ((c :: rest).get? (e - 1) == some '\n') ((c :: rest).drop e)
      | none => c :: scanBlank fuel (c == '\n') rest
    else c :: scanBlank fuel (c == '\n') rest

/-- Line 74: `re.sub(r'^[\s...]+$', '', post_text, flags=re.MULTILINE)`,
removing every line whose entire content is whitespace or invisible
formatting characters (a single match may span several such consecutive
lines, since the class contains the newline). -/
def blankInvisibleLines (t : List Char) : List Char :=
  scanBlank t.length true t

/-- The scan of `re.sub(r'\n{3,}', '\n\n', ...)` of line 76: `k` counts
the newlines already kept from the current run; the third and later
newlines of a run are dropped. -/
def collapseGo : Nat → List Char → List Char
  | _, [] => []
  | k, c :: rest =>
    if c = '\n' then
      if 2 ≤ k then collapseGo k rest
      else '\n' :: collapseGo (k + 1) rest
    else c :: collapseGo 0 rest

/-- Line 76: collapse every run of 3 or more newlines to exactly two. -/
def collapseNewlines (t : List Char) : List Char :=
  collapseGo 0 t

/-- Lines 71-77: the whole pure formatting pipeline of `post_to_bluesky`. -/
def format_post_text (sender subject date body : List Char) : List Char :=
  pyStrip (collapseNewlines (blankInvisibleLines
    (stripLineIndent (headerText sender subject date body))))

/-- `post_chunks(post_text, client)` (line 100 onward): split the text
with the default maximum chunk size 300, then publish. -/
def post_chunks {H E : Type} (f : Nat → Except E H) (post_text : List Char) :
    List (PostEvent H) × Except (PubError E) Nat :=
  post_chunks_loop f (split_text post_text 300)

/-- Failures of `post_to_bluesky`: a login failure (lines 64-69) or a
publish failure. -/
inductive BotError (L E : Type) where
  | login (l : L)
  | pub (p : PubError E)
deriving DecidableEq

/-- `post_to_bluesky` (lines 43-81): login (modelled by an `Except`
outcome), format, and publish; all failures are raised, never encoded in
the return value. -/
def post_to_bluesky {H L E : Type} (login : Except L Unit) (f : Nat → Except E H)
    (sender subject date body : List Char) :
    List (PostEvent H) × Except (BotError L E) Nat :=
  match login with
  | .error l => ([], .error (.login l))
  | .ok _ =>
    let t := post_chunks f (format_post_text sender subject date body)
    (t.1, match t.2 with | .ok n => .ok n | .error e => .error (.pub e))

example : split_text "The quick brown fox jumps over the lazy dog".data 20 =
    ["The quick brown fox".data, "jumps over the lazy".data, "dog".data] := by decide

example : split_text "hello world this is a test of splitting text".data 12 =
    ["hello world".data, "this is a".data, "test of".data,
     "splitting".data, "text".data] := by decide

example : split_text "ab cd ef".data 4 = ["ab".data, "cd".data, "ef".data] := by decide

example : format_post_text [] [] [] [] = "📧 From: \nSubject: \nSent:".data := by decide


/-! ### Splitter lemmas and claims C4, C5, C6 -/

theorem rfindSpace_ge (l : List Char) : -1 ≤ rfindSpace l := by
  unfold rfindSpace
  split
  · omega
  · omega

theorem rfindSpace_lt (l : List Char) : rfindSpace l < (l.length : Int) := by
  unfold rfindSpace
  split
  case _ j heq =>
    have hj := (List.findIdx?_eq_some_iff_findIdx_eq.mp heq).1
    rw [List.length_reverse] at hj
    have : (l.length - 1 - j : Nat) < l.length := by omega
    exact_mod_cast this
  case _ =>
    omega

theorem splitChunkEnd_le (t : List Char) (mc start : Nat) :
    splitChunkEnd t mc start ≤ start + mc := by
  unfold splitChunkEnd
  split
  · split
    · have h1 := rfindSpace_lt ((t.drop start).take mc)
      have h2 : ((t.drop start).take mc).length ≤ mc := by
        simp
      omega
    · exact Nat.le_refl _
  · exact Nat.le_refl _

theorem splitChunkEnd_progress (t : List Char) (mc start : Nat)
    (hmc : 50 ≤ mc) (_hstart : start < t.length) :
    start < splitChunkEnd t mc start := by
  unfold splitChunkEnd
  split
  · split
    case _ hcond =>
      have h0 := rfindSpace_ge ((t.drop start).take mc)
      omega
    case _ => omega
  · omega

/-- C4 (amended): when the window of `maxChunk` characters does not reach
the end of the text, and the window's last space is at offset `i`, the cut
moves to just after that space exactly when `i` is no earlier than
`maxChunk - 50` (an integer comparison) and stays at the hard boundary
otherwise; when the window has no space, the cut stays at the hard
boundary for `maxChunk ≥ 50` but degenerates to the window start (no
cursor advance) for `maxChunk < 50`.  The loop then emits the trimmed
window and advances the cursor to the chosen cut itself, not past the
trim. -/
theorem split_text_cut_rule (t : List Char) (mc start : Nat)
    (hwin : start + mc < t.length) :
    (∀ i : Nat, rfindSpace ((t.drop start).take mc) = (i : Int) →
      splitChunkEnd t mc start =
        if (mc : Int) - 50 ≤ (i : Int) then start + (i + 1) else start + mc) ∧
    (rfindSpace ((t.drop start).take mc) = -1 →
      splitChunkEnd t mc start = if 50 ≤ mc then start + mc else start) ∧
    (∀ fuel, splitGo t mc (fuel + 1) start =
      pyStrip ((t.drop start).take (splitChunkEnd t mc start - start)) ::
        splitGo t mc fuel (splitChunkEnd t mc start)) := by
  have hlt : start < t.length := by omega
  refine ⟨?_, ?_, ?_⟩
  · intro i hi
    unfold splitChunkEnd
    rw [if_pos hwin, hi]
    by_cases hc : (mc : Int) - 50 ≤ (i : Int)
    · rw [if_pos (by omega), if_pos hc]
      congr 1
    · rw [if_neg (by omega), if_neg hc]
  · intro hi
    unfold splitChunkEnd
    rw [if_pos hwin, hi]
    by_cases hc : 50 ≤ mc
    · rw [if_pos hc, if_neg (show ¬((mc : Int) - 50 < -1 + 1) by omega)]
    · rw [if_neg hc, if_pos (show (mc : Int) - 50 < -1 + 1 by omega)]
      omega
  · intro fuel
    rw [splitGo, if_pos hlt]

theorem split_text_cut_rule_witness :
    (0 + 20 < "The quick brown fox jumps over the lazy dog".data.length) ∧
    rfindSpace (("The quick brown fox jumps over the lazy dog".data.drop 0).take 20) =
      ((19 : Nat) : Int) ∧
    splitChunkEnd "The quick brown fox jumps over the lazy dog".data 20 0 = 0 + (19 + 1) := by
  refine ⟨by decide, by decide, ?_⟩
  have h := (split_text_cut_rule "The quick brown fox jumps over the lazy dog".data
    20 0 (by decide)).1 19 (by decide)
  rw [h, if_pos (by decide)]

/-- C4 as stated is false: with `maxChunk = 10 < 50` and a 60-character
text with no space, the first window does not reach the end of the text
and has no space, yet the cut does not stay at the hard boundary
`maxChunk` (it degenerates to the window start). -/
theorem split_text_cut_rule_cex :
    (0 + 10 < (List.replicate 60 'a').length) ∧
    (∀ c ∈ ((List.replicate 60 'a').drop 0).take 10, ¬ c = ' ') ∧
    splitChunkEnd (List.replicate 60 'a') 10 0 ≠ 0 + 10 := by decide

theorem pyStrip_eq_nil_iff (l : List Char) :
    pyStrip l = [] ↔ ∀ c ∈ l, isPySpace c := by
  unfold pyStrip
  rw [List.rdropWhile_eq_nil_iff]
  constructor
  · intro h c hc
    rcases List.mem_append.mp
      ((List.takeWhile_append_dropWhile (p := isPySpace) (l := l)) ▸ hc) with h1 | h2
    · exact List.mem_takeWhile_imp h1
    · exact h c h2
  · intro h c hc
    exact h c ((List.dropWhile_suffix isPySpace).subset hc)

theorem pyStrip_length_le (l : List Char) : (pyStrip l).length ≤ l.length := by
  unfold pyStrip
  calc (List.rdropWhile isPySpace (List.dropWhile isPySpace l)).length
      ≤ (List.dropWhile isPySpace l).length :=
        (List.rdropWhile_prefix _ _).length_le
    _ ≤ l.length := (List.dropWhile_suffix isPySpace).length_le

theorem splitGo_of_le (t : List Char) (mc : Nat) (fuel start : Nat)
    (h : t.length ≤ start) : splitGo t mc fuel start = [] := by
  cases fuel with
  | zero => rfl
  | succ f => rw [splitGo, if_neg (by omega)]

theorem splitGo_windows (t : List Char) (mc : Nat) (hmc : 50 ≤ mc) :
    ∀ (fuel start : Nat), t.length - start ≤ fuel →
    ∃ ws : List (List Char),
      t.drop start = ws.flatten ∧
      splitGo t mc fuel start = ws.map pyStrip ∧
      (∀ w ∈ ws, w.length ≤ mc) := by
  intro fuel
  induction fuel with
  | zero =>
    intro start h
    refine ⟨[], ?_, rfl, by simp⟩
    rw [List.drop_eq_nil_of_le (show t.length ≤ start by omega), List.flatten_nil]
  | succ f ih =>
    intro start h
    by_cases hlt : start < t.length
    · have hprog := splitChunkEnd_progress t mc start hmc hlt
      have hle := splitChunkEnd_le t mc start
      obtain ⟨ws, hflat, hgo, hlen⟩ := ih (splitChunkEnd t mc start) (by omega)
      refine ⟨(t.drop start).take (splitChunkEnd t mc start - start) :: ws, ?_, ?_, ?_⟩
      · rw [List.flatten_cons, ← hflat]
        conv_lhs => rw [← List.take_append_drop (splitChunkEnd t mc start - start) (t.drop start)]
        rw [List.drop_drop]
        congr 2
        omega
      · rw [splitGo, if_pos hlt, List.map_cons, hgo]
      · intro w hw
        rcases List.mem_cons.mp hw with rfl | hw
        · simp only [List.length_take, List.length_drop]
          omega
        · exact hlen w hw
    · refine ⟨[], ?_, ?_, by simp⟩
      · rw [List.drop_eq_nil_of_le (show t.length ≤ start by omega), List.flatten_nil]
      · exact splitGo_of_le t mc _ start (by omega)

/-- C5 (amended to `maxChunk ≥ 50`): `split_text` cuts the text into
consecutive windows whose concatenation is exactly the original text, each
window at most `maxChunk` long; every returned chunk is the trim of its
window (so also at most `maxChunk` long), and a chunk is empty only when
its whole untrimmed window was whitespace. -/
theorem split_text_windows (t : List Char) (mc : Nat) (hmc : 50 ≤ mc) :
    ∃ ws : List (List Char),
      t = ws.flatten ∧
      split_text t mc = ws.map pyStrip ∧
      (∀ w ∈ ws, w.length ≤ mc) ∧
      (∀ c ∈ split_text t mc, c.length ≤ mc) ∧
      (∀ w ∈ ws, pyStrip w = [] → ∀ c ∈ w, isPySpace c) := by
  obtain ⟨ws, hflat, hgo, hlen⟩ := splitGo_windows t mc hmc t.length 0 (by omega)
  refine ⟨ws, by simpa using hflat, hgo, hlen, ?_, ?_⟩
  · intro c hc
    rw [split_text] at hc
    rw [hgo] at hc
    obtain ⟨w, hw, rfl⟩ := List.mem_map.mp hc
    exact Nat.le_trans (pyStrip_length_le w) (hlen w hw)
  · intro w _ hnil
    exact (pyStrip_eq_nil_iff w).mp hnil

theorem split_text_windows_witness :
    (50 ≤ 50) ∧
    (∃ ws : List (List Char),
      "ab cd ef".data = ws.flatten ∧
      split_text "ab cd ef".data 50 = ws.map pyStrip ∧
      (∀ w ∈ ws, w.length ≤ 50) ∧
      (∀ c ∈ split_text "ab cd ef".data 50, c.length ≤ 50) ∧
      (∀ w ∈ ws, pyStrip w = [] → ∀ c ∈ w, isPySpace c)) :=
  ⟨by decide, split_text_windows "ab cd ef".data 50 (by decide)⟩

/-- C5 as stated is false for `maxChunk < 50`: on a 60-character spaceless
text with `maxChunk = 10` the Python loop never advances its cursor (the
fueled model truncates after 60 iterations of empty chunks), and no window
decomposition reconstructing the text exists. -/
theorem split_text_windows_cex :
    ¬ ∃ ws : List (List Char),
        List.replicate 60 'a' = ws.flatten ∧
        split_text (List.replicate 60 'a') 10 = ws.map pyStrip := by
  rintro ⟨ws, hflat, hmap⟩
  have hsplit : split_text (List.replicate 60 'a') 10 = List.replicate 60 [] := by decide
  rw [hsplit] at hmap
  have hall : ∀ w ∈ ws, pyStrip w = [] := by
    intro w hw
    exact (List.eq_replicate_iff.mp hmap.symm).2 (pyStrip w) (List.mem_map_of_mem pyStrip hw)
  have ha : 'a' ∈ List.replicate 60 'a' := List.mem_replicate.mpr ⟨by omega, rfl⟩
  rw [hflat] at ha
  obtain ⟨w, hw, hc⟩ := List.mem_flatten.mp ha
  have h2 := (pyStrip_eq_nil_iff w).mp (hall w hw) 'a' hc
  exact absurd h2 (by decide)

theorem splitGo_stable (t : List Char) (mc : Nat) (hmc : 50 ≤ mc) :
    ∀ (fuel₁ fuel₂ start : Nat), t.length - start ≤ fuel₁ → t.length - start ≤ fuel₂ →
      splitGo t mc fuel₁ start = splitGo t mc fuel₂ start := by
  intro fuel₁
  induction fuel₁ with
  | zero =>
    intro fuel₂ start h1 _
    rw [splitGo_of_le t mc 0 start (by omega), splitGo_of_le t mc fuel₂ start (by omega)]
  | succ f ih =>
    intro fuel₂ start h1 h2
    by_cases hlt : start < t.length
    · have hprog := splitChunkEnd_progress t mc start hmc hlt
      cases fuel₂ with
      | zero => omega
      | succ g =>
        rw [splitGo, splitGo, if_pos hlt, if_pos hlt,
          ih g (splitChunkEnd t mc start) (by omega) (by omega)]
    · rw [splitGo_of_le t mc _ start (by omega), splitGo_of_le t mc fuel₂ start (by omega)]

/-- C6 (amended to `maxChunk ≥ 50`): the cursor strictly advances on every
iteration, so the loop terminates after at most `t.length` iterations:
any fuel of at least `t.length` yields the same chunk list. -/
theorem split_text_terminates (t : List Char) (mc : Nat) (hmc : 50 ≤ mc) :
    (∀ start, start < t.length → start < splitChunkEnd t mc start) ∧
    (∀ fuel, t.length ≤ fuel → splitGo t mc fuel 0 = split_text t mc) := by
  refine ⟨fun start h => splitChunkEnd_progress t mc start hmc h, fun fuel h => ?_⟩
  exact splitGo_stable t mc hmc fuel t.length 0 (by omega) (by omega)

theorem split_text_terminates_witness :
    (50 ≤ 50) ∧
    ((∀ start, start < "hi there".data.length → start < splitChunkEnd "hi there".data 50 start) ∧
     (∀ fuel, "hi there".data.length ≤ fuel →
        splitGo "hi there".data 50 fuel 0 = split_text "hi there".data 50)) :=
  ⟨by decide, split_text_terminates "hi there".data 50 (by decide)⟩

/-- C6 as stated is false: with `maxChunk = 10` on a 60-character spaceless
text the window does not reach the end and has no space, and the cursor
does not advance at all (the Python loop runs forever). -/
theorem split_text_terminates_cex :
    (0 < (List.replicate 60 'a').length) ∧
    splitChunkEnd (List.replicate 60 'a') 10 0 = 0 := by decide



/-! ### Claims C8 and C9 -/

/-- C8 (amended): the formatting transformation is a total function of its
string inputs (it is built only from total string operations, so it cannot
fail), but with every field empty it yields the header-label string, not
empty output. -/
theorem format_post_text_empty_fields :
    format_post_text [] [] [] [] = "📧 From: \nSubject: \nSent:".data := by decide

/-- C8 as stated is false: formatting with every field empty does not
yield empty output (the header labels remain). -/
theorem format_post_text_empty_fields_cex :
    format_post_text [] [] [] [] ≠ [] := by decide

theorem post_chunks_loop_ok_len {H E : Type} (f : Nat → Except E H)
    (chunks : List (List Char)) (n : Nat)
    (h : (post_chunks_loop f chunks).2 = .ok n) :
    n = chunks.length ∧ chunks ≠ [] := by
  cases chunks with
  | nil => simp [post_chunks_loop] at h
  | cons c0 rest =>
    cases hf : f 0 with
    | error e => rw [post_chunks_loop] at h; rw [hf] at h; simp at h
    | ok h0 =>
      rw [post_chunks_loop] at h
      rw [hf] at h
      simp only at h
      cases hr : (postLoop f h0 1 h0 rest).2 with
      | ok u => rw [hr] at h; simp at h; exact ⟨h.symm, by simp⟩
      | error e => rw [hr] at h; simp at h

/-- C9: whenever `post_to_bluesky` returns normally, the returned count is
at least 1; it never returns 0, every failure being raised instead. -/
theorem post_to_bluesky_pos {H L E : Type} (login : Except L Unit) (f : Nat → Except E H)
    (sender subject date body : List Char) (n : Nat)
    (h : (post_to_bluesky login f sender subject date body).2 = .ok n) :
    1 ≤ n := by
  cases login with
  | error l => simp [post_to_bluesky] at h
  | ok u =>
    rw [post_to_bluesky] at h
    simp only at h
    cases hr : (post_chunks f (format_post_text sender subject date body)).2 with
    | error e => rw [hr] at h; simp at h
    | ok m =>
      rw [hr] at h
      simp only [Except.ok.injEq] at h
      rw [post_chunks] at hr
      obtain ⟨hn, hne⟩ := post_chunks_loop_ok_len f _ m hr
      have hpos := List.length_pos.mpr hne
      omega

theorem post_to_bluesky_pos_witness :
    (post_to_bluesky (.ok () : Except Unit Unit) (fun k => (.ok k : Except Unit Nat))
      [] [] [] []).2 = .ok 1 ∧ 1 ≤ 1 :=
  ⟨rfl, post_to_bluesky_pos (.ok () : Except Unit Unit) (fun k => (.ok k : Except Unit Nat))
    [] [] [] [] 1 rfl⟩


/-! ### Formatter verification: line structure and scan lemmas -/

theorem linesCL_ne_nil (t : List Char) : linesCL t ≠ [] := by
  cases t with
  | nil => simp [linesCL]
  | cons c rest =>
    rw [linesCL]
    split
    · simp
    · split <;> simp

theorem nl_not_mem_linesCL (t : List Char) : ∀ l ∈ linesCL t, '\n' ∉ l := by
  induction t with
  | nil => intro l hl; simp [linesCL] at hl; simp [hl]
  | cons c rest ih =>
    intro l hl
    rw [linesCL] at hl
    by_cases hc : c = '\n'
    · rw [if_pos hc] at hl
      rcases List.mem_cons.mp hl with rfl | hl
      · simp
      · exact ih l hl
    · rw [if_neg hc] at hl
      cases h : linesCL rest with
      | nil => exact absurd h (linesCL_ne_nil rest)
      | cons a as =>
        rw [h] at hl
        rcases List.mem_cons.mp hl with rfl | hl
        · intro hmem
          rcases List.mem_cons.mp hmem with h1 | h1
          · exact hc h1.symm
          · exact ih a (h ▸ List.mem_cons_self a as) h1
        · exact ih l (h ▸ List.mem_cons_of_mem a hl)

theorem unlinesCL_linesCL (t : List Char) : unlinesCL (linesCL t) = t := by
  induction t with
  | nil => rfl
  | cons c rest ih =>
    rw [linesCL]
    by_cases hc : c = '\n'
    · rw [if_pos hc]
      cases h : linesCL rest with
      | nil => exact absurd h (linesCL_ne_nil rest)
      | cons a as =>
        rw [h] at ih
        subst hc
        show unlinesCL ([] :: a :: as) = '\n' :: rest
        rw [show unlinesCL ([] :: a :: as) = [] ++ '\n' :: unlinesCL (a :: as) from rfl]
        rw [List.nil_append, ih]
    · rw [if_neg hc]
      cases h : linesCL rest with
      | nil => exact absurd h (linesCL_ne_nil rest)
      | cons a as =>
        rw [h] at ih
        cases as with
        | nil =>
          show c :: a = c :: rest
          rw [show unlinesCL [a] = a from rfl] at ih
          rw [ih]
        | cons b bs =>
          show (c :: a) ++ '\n' :: unlinesCL (b :: bs) = c :: rest
          rw [show unlinesCL (a :: b :: bs) = a ++ '\n' :: unlinesCL (b :: bs) from rfl] at ih
          rw [List.cons_append, ih]

theorem matchEnd_some (s : List Char) (e : Nat) (h : matchEnd s = some e) :
    1 ≤ e ∧ e ≤ (s.takeWhile classChar).length ∧ (e = s.length ∨ s.get? e = some '\n') := by
  unfold matchEnd at h
  have hmem := List.mem_of_find?_eq_some h
  have hp := List.find?_some h
  rw [List.mem_reverse, List.mem_range] at hmem
  simp only [Bool.and_eq_true, Bool.or_eq_true, decide_eq_true_eq, beq_iff_eq] at hp
  exact ⟨hp.1, by omega, hp.2⟩

theorem matchEnd_none (s : List Char) (h : matchEnd s = none) :
    ∀ e, 1 ≤ e → e ≤ (s.takeWhile classChar).length →
      ¬(e = s.length ∨ s.get? e = some '\n') := by
  intro e h1 h2 hcon
  unfold matchEnd at h
  rw [List.find?_eq_none] at h
  have h3 := h e (by rw [List.mem_reverse, List.mem_range]; omega)
  simp only [Bool.and_eq_true, Bool.or_eq_true, decide_eq_true_eq, beq_iff_eq] at h3
  exact h3 ⟨h1, hcon⟩


theorem scanBlank_zero (flag : Bool) (s : List Char) : scanBlank 0 flag s = [] := rfl

theorem scanBlank_nil (fuel : Nat) (flag : Bool) : scanBlank fuel flag [] = [] := by
  cases fuel <;> rfl

theorem scanBlank_succ_cons (fuel : Nat) (atStart : Bool) (c : Char) (rest : List Char) :
    scanBlank (fuel + 1) atStart (c :: rest) =
      if atStart && classChar c then
        match matchEnd (c :: rest) with
        | some e => scanBlank fuel ((c :: rest).get? (e - 1) == some '\n') ((c :: rest).drop e)
        | none => c :: scanBlank fuel (c == '\n') rest
      else c :: scanBlank fuel (c == '\n') rest := rfl

theorem scanBlank_fuel (f1 : Nat) : ∀ (f2 : Nat) (flag : Bool) (s : List Char),
    s.length ≤ f1 → s.length ≤ f2 → scanBlank f1 flag s = scanBlank f2 flag s := by
  induction f1 with
  | zero =>
    intro f2 flag s h1 _
    have hs : s = [] := List.length_eq_zero.mp (by omega)
    subst hs
    cases f2 <;> rfl
  | succ f ih =>
    intro f2 flag s h1 h2
    cases s with
    | nil => cases f2 <;> rfl
    | cons c rest =>
      cases f2 with
      | zero => simp at h2
      | succ g =>
        simp only [List.length_cons] at h1 h2
        rw [scanBlank_succ_cons, scanBlank_succ_cons]
        by_cases hc : (flag && classChar c) = true
        · rw [if_pos hc, if_pos hc]
          cases he : matchEnd (c :: rest) with
          | some e =>
            obtain ⟨he1, he2, _⟩ := matchEnd_some _ e he
            have hq : ((c :: rest).takeWhile classChar).length ≤ rest.length + 1 := by
              simpa using (List.takeWhile_prefix classChar (l := c :: rest)).length_le
            show scanBlank f ((c :: rest).get? (e - 1) == some '\n') ((c :: rest).drop e) =
              scanBlank g ((c :: rest).get? (e - 1) == some '\n') ((c :: rest).drop e)
            apply ih
            · simp only [List.length_drop, List.length_cons]; omega
            · simp only [List.length_drop, List.length_cons]; omega
          | none =>
            show c :: scanBlank f (c == '\n') rest = c :: scanBlank g (c == '\n') rest
            congr 1
            exact ih g (c == '\n') rest (by omega) (by omega)
        · rw [if_neg hc, if_neg hc]
          congr 1
          exact ih g (c == '\n') rest (by omega) (by omega)

theorem scanBlank_false (s : List Char) : ∀ (fuel : Nat), s.length ≤ fuel →
    scanBlank fuel false s =
      s.takeWhile (fun c => c != '\n') ++
        (match s.dropWhile (fun c => c != '\n') with
         | [] => []
         | _ :: z => '\n' :: scanBlank z.length true z) := by
  induction s with
  | nil => intro fuel _; cases fuel <;> rfl
  | cons c rest ih =>
    intro fuel h
    cases fuel with
    | zero => simp at h
    | succ f =>
      simp only [List.length_cons] at h
      rw [scanBlank_succ_cons, if_neg (by simp)]
      by_cases hc : c = '\n'
      · subst hc
        rw [List.takeWhile_cons_of_neg (by simp), List.dropWhile_cons_of_neg (by simp)]
        simp only [List.nil_append, beq_self_eq_true]
        congr 1
        exact scanBlank_fuel f rest.length true rest (by omega) (Nat.le_refl _)
      · rw [List.takeWhile_cons_of_pos (by simp [hc]), List.dropWhile_cons_of_pos (by simp [hc])]
        have hb : (c == '\n') = false := by simp [hc]
        rw [hb, List.cons_append]
        congr 1
        exact ih f (by omega)


/-! ### Blank-line scan establishes: no output line is non-empty all-class -/

theorem mem_take_class (s : List Char) (e : Nat)
    (he : e ≤ (s.takeWhile classChar).length) :
    ∀ c ∈ s.take e, classChar c = true := by
  intro c hc
  obtain ⟨dw, hdw⟩ : ∃ dw, s = s.takeWhile classChar ++ dw :=
    ⟨s.dropWhile classChar, (List.takeWhile_append_dropWhile classChar s).symm⟩
  rw [hdw, List.take_append_of_le_length he] at hc
  exact List.mem_takeWhile_imp (List.take_subset e _ hc)

theorem get_after_takeWhile (p : Char → Bool) :
    ∀ (s : List Char) (d : Char), s.get? (s.takeWhile p).length = some d → p d = false := by
  intro s
  induction s with
  | nil => intro d h; simp at h
  | cons c rest ih =>
    intro d h
    by_cases hp : p c = true
    · rw [List.takeWhile_cons_of_pos hp] at h
      exact ih d h
    · rw [List.takeWhile_cons_of_neg hp] at h
      simp only [List.length_nil, List.get?] at h
      cases h
      simpa using hp

theorem mem_takeWhile_of_get? (p : Char → Bool) :
    ∀ (l : List Char) (j : Nat) (d : Char), l.get? j = some d →
      (∀ i, i ≤ j → ∀ x, l.get? i = some x → p x = true) →
      d ∈ l.takeWhile p := by
  intro l
  induction l with
  | nil => intro j d h _; simp at h
  | cons c rest ih =>
    intro j d h hall
    have hc : p c = true := hall 0 (Nat.zero_le j) c rfl
    rw [List.takeWhile_cons_of_pos hc]
    cases j with
    | zero =>
      simp only [List.get?] at h
      cases h
      exact List.mem_cons_self _ _
    | succ j' =>
      simp only [List.get?] at h
      exact List.mem_cons_of_mem c
        (ih j' d h (fun i hi x hx => hall (i + 1) (by omega) x hx))

/-- Scanning check that no line of the string is both non-empty and made
only of `P`-characters: `e` records whether the current line is still
empty, `a` whether every character of the current line so far satisfies
`P`. -/
def chkLines (P : Char → Bool) : Bool → Bool → List Char → Bool
  | e, a, [] => !(!e && a)
  | e, a, c :: rest =>
    if c = '\n' then (!(!e && a)) && chkLines P true true rest
    else chkLines P false (a && P c) rest

theorem chkLines_nil (P : Char → Bool) (e a : Bool) :
    chkLines P e a [] = !(!e && a) := rfl

theorem chkLines_cons (P : Char → Bool) (e a : Bool) (c : Char) (rest : List Char) :
    chkLines P e a (c :: rest) =
      if c = '\n' then (!(!e && a)) && chkLines P true true rest
      else chkLines P false (a && P c) rest := rfl

theorem chkLines_append_no_nl (P : Char → Bool) :
    ∀ (xs ys : List Char) (e a : Bool), (∀ x ∈ xs, ¬ x = '\n') →
      chkLines P e a (xs ++ ys) = chkLines P (e && xs.isEmpty) (a && xs.all P) ys := by
  intro xs
  induction xs with
  | nil => intro ys e a _; simp
  | cons x xs' ih =>
    intro ys e a hx
    rw [List.cons_append, chkLines_cons, if_neg (hx x (List.mem_cons_self _ _)),
      ih ys false (a && P x) (fun y hy => hx y (List.mem_cons_of_mem x hy))]
    simp [Bool.and_assoc]

theorem matchEnd_none_line (c : Char) (rest : List Char) (hcl : classChar c = true)
    (hnone : matchEnd (c :: rest) = none) :
    ∃ d ∈ rest.takeWhile (fun x => x != '\n'), classChar d = false := by
  have hnone' := matchEnd_none _ hnone
  have hq1 : 1 ≤ ((c :: rest).takeWhile classChar).length := by
    rw [List.takeWhile_cons_of_pos hcl]
    simp
  have hqle : ((c :: rest).takeWhile classChar).length ≤ rest.length + 1 := by
    simpa using (List.takeWhile_prefix classChar (l := c :: rest)).length_le
  set q := ((c :: rest).takeWhile classChar).length with hqdef
  have hqlt : q < rest.length + 1 := by
    rcases Nat.lt_or_ge q (rest.length + 1) with h | h
    · exact h
    · exact absurd (Or.inl (by simp; omega)) (hnone' q hq1 (Nat.le_refl _))
  have hd : (c :: rest).get? q = some ((c :: rest).get ⟨q, by simpa using hqlt⟩) := by
    rw [List.get?_eq_some]
    exact ⟨by simpa using hqlt, rfl⟩
  set d := (c :: rest).get ⟨q, by simpa using hqlt⟩ with hddef
  have hdclass : classChar d = false := get_after_takeWhile classChar (c :: rest) d hd
  have hdrest : rest.get? (q - 1) = some d := by
    have hq' : q - 1 + 1 = q := by omega
    rw [← hq'] at hd
    exact hd
  refine ⟨d, ?_, hdclass⟩
  apply mem_takeWhile_of_get? _ rest (q - 1) d hdrest
  intro i hi x hx
  have hxnl : ¬ x = '\n' := by
    intro hcon
    refine hnone' (i + 1) (by omega) (by omega) (Or.inr ?_)
    show (c :: rest).get? (i + 1) = some '\n'
    rw [show (c :: rest).get? (i + 1) = rest.get? i from rfl, hx, hcon]
  simp [hxnl]

theorem chk_emit_scanFalse (n : Nat)
    (ihyp : ∀ (s : List Char) (fuel : Nat), s.length ≤ n → s.length ≤ fuel →
      chkLines classChar true true (scanBlank fuel true s) = true)
    (c : Char) (rest : List Char) (f : Nat)
    (hnl : ¬ c = '\n') (hrest : rest.length ≤ f) (hrn : rest.length ≤ n)
    (hallf : (classChar c && (rest.takeWhile (fun x => x != '\n')).all classChar) = false) :
    chkLines classChar true true (c :: scanBlank f false rest) = true := by
  rw [scanBlank_false rest f hrest, chkLines_cons, if_neg hnl,
    chkLines_append_no_nl _ _ _ _ _ (by
      intro x hx
      simpa using List.mem_takeWhile_imp hx)]
  rw [Bool.false_and]
  rw [show ((true && classChar c) && (rest.takeWhile (fun x => x != '\n')).all classChar)
      = false from by simpa using hallf]
  cases hdw : rest.dropWhile (fun x => x != '\n') with
  | nil => rfl
  | cons w z =>
    show chkLines classChar false false ('\n' :: scanBlank z.length true z) = true
    rw [chkLines_cons, if_pos rfl, Bool.and_eq_true]
    refine ⟨rfl, ?_⟩
    have hz : z.length < rest.length + 1 := by
      have h1 : (rest.dropWhile (fun x => x != '\n')).length ≤ rest.length :=
        (List.dropWhile_suffix _).length_le
      rw [hdw] at h1
      simp only [List.length_cons] at h1
      omega
    exact ihyp z z.length (by omega) (Nat.le_refl _)

theorem scanBlank_chk : ∀ (n : Nat) (s : List Char) (fuel : Nat),
    s.length ≤ n → s.length ≤ fuel →
    chkLines classChar true true (scanBlank fuel true s) = true := by
  intro n
  induction n with
  | zero =>
    intro s fuel h _
    have hs : s = [] := List.length_eq_zero.mp (by omega)
    subst hs
    rw [scanBlank_nil]
    rfl
  | succ n ih =>
    intro s fuel hn hf
    cases s with
    | nil => rw [scanBlank_nil]; rfl
    | cons c rest =>
      simp only [List.length_cons] at hn hf
      cases fuel with
      | zero => omega
      | succ f =>
        rw [scanBlank_succ_cons]
        by_cases hcl : classChar c = true
        · rw [if_pos (by simp [hcl])]
          cases he : matchEnd (c :: rest) with
          | some e =>
            show chkLines classChar true true
              (scanBlank f ((c :: rest).get? (e - 1) == some '\n') ((c :: rest).drop e)) = true
            obtain ⟨he1, he2, he3⟩ := matchEnd_some _ e he
            by_cases hflag : ((c :: rest).get? (e - 1) == some '\n') = true
            · rw [hflag]
              exact ih ((c :: rest).drop e) f
                (by simp only [List.length_drop, List.length_cons]; omega)
                (by simp only [List.length_drop, List.length_cons]; omega)
            · rw [Bool.eq_false_iff.mpr hflag]
              rcases he3 with he3 | he3
              · rw [List.length_cons] at he3
                rw [he3, show rest.length + 1 = (c :: rest).length from rfl,
                  List.drop_length, scanBlank_nil]
                rfl
              · have hlt : e < rest.length + 1 := by
                  by_contra hge
                  rw [List.get?_eq_getElem?,
                    List.getElem?_eq_none (by simp only [List.length_cons]; omega)] at he3
                  cases he3
                have hdrop : (c :: rest).drop e = '\n' :: (c :: rest).drop (e + 1) := by
                  rw [List.drop_eq_getElem_cons (by simp only [List.length_cons]; omega)]
                  congr 1
                  rw [List.get?_eq_getElem?] at he3
                  exact (List.getElem?_eq_some.mp he3).2
                have hzlen : ((c :: rest).drop (e + 1)).length ≤ rest.length - e := by
                  simp only [List.length_drop, List.length_cons]
                  omega
                rw [hdrop, scanBlank_false ('\n' :: (c :: rest).drop (e + 1)) f (by
                  simp only [List.length_cons]
                  omega)]
                rw [List.takeWhile_cons_of_neg (by simp), List.dropWhile_cons_of_neg (by simp),
                  List.nil_append]
                rw [chkLines_cons, if_pos rfl, Bool.and_eq_true]
                refine ⟨rfl, ?_⟩
                exact ih _ _ (by omega) (Nat.le_refl _)
          | none =>
            show chkLines classChar true true (c :: scanBlank f (c == '\n') rest) = true
            by_cases hnl : c = '\n'
            · subst hnl
              rw [chkLines_cons, if_pos rfl, Bool.and_eq_true]
              refine ⟨rfl, ?_⟩
              rw [show ('\n' == '\n') = true from rfl]
              exact ih rest f (by omega) (by omega)
            · obtain ⟨d, hdmem, hdclass⟩ := matchEnd_none_line c rest hcl he
              rw [show (c == '\n') = false from by simp [hnl]]
              apply chk_emit_scanFalse n ih c rest f hnl (by omega) (by omega)
              have : (rest.takeWhile (fun x => x != '\n')).all classChar = false := by
                rw [Bool.eq_false_iff]
                intro hall
                rw [List.all_eq_true] at hall
                rw [hall d hdmem] at hdclass
                cases hdclass
              rw [this, Bool.and_false]
        · have hnl : ¬ c = '\n' := by
            intro hcon
            rw [hcon] at hcl
            exact hcl (by rw [classChar, isPySpace]; simp)
          rw [if_neg (by simp [hcl])]
          rw [show (c == '\n') = false from by simp [hnl]]
          apply chk_emit_scanFalse n ih c rest f hnl (by omega) (by omega)
          rw [Bool.eq_false_iff.mpr hcl, Bool.false_and]


theorem collapseGo_cons (k : Nat) (c : Char) (rest : List Char) :
    collapseGo k (c :: rest) =
      if c = '\n' then
        if 2 ≤ k then collapseGo k rest else '\n' :: collapseGo (k + 1) rest
      else c :: collapseGo 0 rest := rfl

theorem collapseGo_chk (P : Char → Bool) :
    ∀ (s : List Char) (k : Nat) (e a : Bool),
      (k = 0 ∨ (1 ≤ k ∧ e = true ∧ a = true)) →
      chkLines P e a s = true → chkLines P e a (collapseGo k s) = true := by
  intro s
  induction s with
  | nil =>
    intro k e a _ h
    rw [show collapseGo k [] = [] from rfl]
    exact h
  | cons c rest ih =>
    intro k e a hk h
    rw [collapseGo_cons]
    by_cases hc : c = '\n'
    · rw [if_pos hc]
      rw [chkLines_cons, if_pos hc, Bool.and_eq_true] at h
      by_cases h2 : 2 ≤ k
      · rw [if_pos h2]
        obtain ⟨hek, hak⟩ : e = true ∧ a = true := by
          rcases hk with rfl | ⟨_, he, ha⟩
          · omega
          · exact ⟨he, ha⟩
        subst hek
        subst hak
        exact ih k true true (Or.inr ⟨by omega, rfl, rfl⟩) h.2
      · rw [if_neg h2, chkLines_cons, if_pos rfl, Bool.and_eq_true]
        exact ⟨h.1, ih (k + 1) true true (Or.inr ⟨by omega, rfl, rfl⟩) h.2⟩
    · rw [if_neg hc]
      rw [chkLines_cons, if_neg hc] at h ⊢
      exact ih 0 false (a && P c) (Or.inl rfl) h

theorem linesCL_cons (c : Char) (rest : List Char) :
    linesCL (c :: rest) =
      if c = '\n' then [] :: linesCL rest
      else match linesCL rest with
        | [] => [[c]]
        | l :: ls => (c :: l) :: ls := rfl

theorem chkLines_to_lines (P : Char → Bool) :
    ∀ (t : List Char) (e a : Bool), chkLines P e a t = true →
      (∀ l ∈ (linesCL t).tail, l.all P = true → l = []) ∧
      (a = true → ∀ h0, (linesCL t).head? = some h0 → h0.all P = true →
        e = true ∧ h0 = []) := by
  intro t
  induction t with
  | nil =>
    intro e a h
    refine ⟨by intro l hl; simp [linesCL] at hl, ?_⟩
    intro ha h0 hh0 _
    rw [show linesCL ([] : List Char) = [[]] from rfl] at hh0
    simp only [List.head?_cons, Option.some.injEq] at hh0
    subst ha
    rw [chkLines_nil] at h
    refine ⟨?_, hh0.symm⟩
    cases e
    · simp at h
    · rfl
  | cons c rest ih =>
    intro e a h
    by_cases hc : c = '\n'
    · rw [linesCL_cons, if_pos hc]
      rw [chkLines_cons, if_pos hc, Bool.and_eq_true] at h
      obtain ⟨ihtail, ihhead⟩ := ih true true h.2
      refine ⟨?_, ?_⟩
      · intro l hl hall
        simp only [List.tail_cons] at hl
        cases hlr : linesCL rest with
        | nil => exact absurd hlr (linesCL_ne_nil rest)
        | cons h0 tl =>
          rw [hlr] at hl
          rcases List.mem_cons.mp hl with rfl | hl
          · exact ((ihhead rfl l (by rw [hlr]; rfl) hall).2)
          · exact ihtail l (by rw [hlr]; exact hl) hall
      · intro ha h0 hh0 hall
        simp only [List.head?_cons, Option.some.injEq] at hh0
        subst ha
        refine ⟨?_, hh0.symm⟩
        have := h.1
        cases e
        · simp at this
        · rfl
    · rw [chkLines_cons, if_neg hc] at h
      obtain ⟨ihtail, ihhead⟩ := ih false (a && P c) h
      cases hlr : linesCL rest with
      | nil => exact absurd hlr (linesCL_ne_nil rest)
      | cons h1 tl =>
        have hlines : linesCL (c :: rest) = (c :: h1) :: tl := by
          rw [linesCL_cons, if_neg hc, hlr]
        rw [hlines]
        refine ⟨?_, ?_⟩
        · intro l hl hall
          exact ihtail l (by rw [hlr]; exact hl) hall
        · intro ha h0 hh0 hall
          simp only [List.head?_cons, Option.some.injEq] at hh0
          subst hh0
          subst ha
          simp only [List.all_cons, Bool.and_eq_true] at hall
          have hfalse := ihhead (by simp [hall.1]) h1 (by rw [hlr]; rfl) hall.2
          cases hfalse.1


/-! ### Lines of the stripped string -/

theorem rdropWhile_append_rtakeWhile (p : Char → Bool) (l : List Char) :
    List.rdropWhile p l ++ List.rtakeWhile p l = l := by
  rw [List.rdropWhile, List.rtakeWhile, ← List.reverse_append,
    List.takeWhile_append_dropWhile, List.reverse_reverse]

theorem linesCL_dropWhile (p : Char → Bool) (hnl : p '\n' = true) :
    ∀ t : List Char, ∃ pre h post,
      linesCL t = pre ++ h :: post ∧
      linesCL (List.dropWhile p t) = List.dropWhile p h :: post := by
  intro t
  induction t with
  | nil => exact ⟨[], [], [], rfl, rfl⟩
  | cons c rest ih =>
    by_cases hp : p c = true
    · by_cases hc : c = '\n'
      · obtain ⟨pre, h, post, h1, h2⟩ := ih
        refine ⟨[] :: pre, h, post, ?_, ?_⟩
        · rw [linesCL_cons, if_pos hc, h1]
          rfl
        · rw [List.dropWhile_cons_of_pos hp]
          exact h2
      · obtain ⟨pre, h, post, h1, h2⟩ := ih
        cases pre with
        | nil =>
          refine ⟨[], c :: h, post, ?_, ?_⟩
          · rw [linesCL_cons, if_neg hc, h1]
            rfl
          · rw [List.dropWhile_cons_of_pos hp,
              show List.dropWhile p (c :: h) = List.dropWhile p h from
                List.dropWhile_cons_of_pos hp]
            exact h2
        | cons p0 pre' =>
          refine ⟨(c :: p0) :: pre', h, post, ?_, ?_⟩
          · rw [linesCL_cons, if_neg hc, h1]
            rfl
          · rw [List.dropWhile_cons_of_pos hp]
            exact h2
    · have hc : ¬ c = '\n' := fun hcon => hp (hcon ▸ hnl)
      cases hlr : linesCL rest with
      | nil => exact absurd hlr (linesCL_ne_nil rest)
      | cons h1 tl =>
        refine ⟨[], c :: h1, tl, ?_, ?_⟩
        · rw [linesCL_cons, if_neg hc, hlr]
          rfl
        · rw [List.dropWhile_cons_of_neg hp, linesCL_cons, if_neg hc, hlr,
            show List.dropWhile p (c :: h1) = c :: h1 from List.dropWhile_cons_of_neg hp]

theorem linesCL_append_nl : ∀ xs : List Char, linesCL (xs ++ ['\n']) = linesCL xs ++ [[]] := by
  intro xs
  induction xs with
  | nil => rfl
  | cons x xs' ih =>
    by_cases hx : x = '\n'
    · rw [List.cons_append, linesCL_cons, if_pos hx, ih, linesCL_cons, if_pos hx]
      rfl
    · rw [List.cons_append, linesCL_cons, if_neg hx, ih]
      cases hlr : linesCL xs' with
      | nil => exact absurd hlr (linesCL_ne_nil xs')
      | cons h t =>
        rw [linesCL_cons, if_neg hx, hlr]
        rfl

theorem linesCL_append_ch : ∀ (xs : List Char) (c : Char), ¬ c = '\n' →
    ∃ pre last, linesCL xs = pre ++ [last] ∧
      linesCL (xs ++ [c]) = pre ++ [last ++ [c]] := by
  intro xs
  induction xs with
  | nil =>
    intro c hc
    refine ⟨[], [], rfl, ?_⟩
    rw [List.nil_append, List.nil_append, linesCL_cons, if_neg hc]
    rfl
  | cons x xs' ih =>
    intro c hc
    obtain ⟨pre, last, h1, h2⟩ := ih c hc
    by_cases hx : x = '\n'
    · refine ⟨[] :: pre, last, ?_, ?_⟩
      · rw [linesCL_cons, if_pos hx, h1]
        rfl
      · rw [List.cons_append, linesCL_cons, if_pos hx, h2]
        rfl
    · cases pre with
      | nil =>
        refine ⟨[], x :: last, ?_, ?_⟩
        · rw [linesCL_cons, if_neg hx, h1]
          rfl
        · rw [List.cons_append, linesCL_cons, if_neg hx, h2]
          rfl
      | cons p0 pre' =>
        refine ⟨(x :: p0) :: pre', last, ?_, ?_⟩
        · rw [linesCL_cons, if_neg hx, h1]
          rfl
        · rw [List.cons_append, linesCL_cons, if_neg hx, h2]
          rfl

theorem linesCL_rdropWhile (p : Char → Bool) (hnl : p '\n' = true) (t : List Char) :
    ∃ pre h post, linesCL t = pre ++ h :: post ∧
      linesCL (List.rdropWhile p t) = pre ++ [List.rdropWhile p h] := by
  induction t using List.reverseRecOn with
  | nil => exact ⟨[], [], [], rfl, by rw [List.rdropWhile_nil]; rfl⟩
  | append_singleton xs x ih =>
    by_cases hp : p x = true
    · obtain ⟨pre, h, post, h1, h2⟩ := ih
      rw [List.rdropWhile_concat_pos p xs x hp]
      by_cases hx : x = '\n'
      · subst hx
        exact ⟨pre, h, post ++ [[]], by rw [linesCL_append_nl, h1]; simp, h2⟩
      · obtain ⟨pre2, last, h3, h4⟩ := linesCL_append_ch xs x hx
        rcases List.eq_nil_or_concat post with rfl | ⟨post0, plast, hpost⟩
        · have heq : pre ++ [h] = pre2 ++ [last] := by rw [← h1, ← h3]
          obtain ⟨hpre, hl⟩ := List.append_inj' heq rfl
          have hl' : h = last := by simpa using hl
          refine ⟨pre, h ++ [x], [], ?_, ?_⟩
          · rw [h4, ← hpre, ← hl']
          · rw [h2, List.rdropWhile_concat_pos p h x hp]
        · subst hpost
          have heq : (pre ++ h :: post0) ++ [plast] = pre2 ++ [last] := by
            rw [← h3, h1, List.concat_eq_append]
            simp
          obtain ⟨hinit, hl⟩ := List.append_inj' heq rfl
          have hl' : plast = last := by simpa using hl
          refine ⟨pre, h, post0 ++ [plast ++ [x]], ?_, h2⟩
          rw [h4, ← hinit, hl']
          simp
    · rw [List.rdropWhile_concat_neg p xs x hp]
      have hx : ¬ x = '\n' := fun hcon => hp (hcon ▸ hnl)
      obtain ⟨pre2, last, h3, h4⟩ := linesCL_append_ch xs x hx
      refine ⟨pre2, last ++ [x], [], by rw [h4], ?_⟩
      rw [h4, List.rdropWhile_concat_neg p last x hp]


theorem isPySpace_classChar (c : Char) (h : isPySpace c = true) : classChar c = true := by
  rw [classChar, h]
  rfl

theorem claimChar_classChar (c : Char) (h : claimChar c = true) : classChar c = true := by
  rw [claimChar] at h
  rw [classChar]
  simp only [Bool.or_eq_true] at h ⊢
  tauto

theorem isPySpace_nl : isPySpace '\n' = true := rfl

theorem linesCL_pyStrip (t : List Char) :
    ∀ l ∈ linesCL (pyStrip t), ∃ l0, l0 ∈ linesCL t ∧
      (l = l0 ∨ l = List.dropWhile isPySpace l0 ∨ l = List.rdropWhile isPySpace l0 ∨
       l = List.rdropWhile isPySpace (List.dropWhile isPySpace l0)) := by
  intro l hl
  obtain ⟨pre0, h0, post0, ha1, ha2⟩ := linesCL_dropWhile isPySpace isPySpace_nl t
  obtain ⟨pre, h, post, hb1, hb2⟩ :=
    linesCL_rdropWhile isPySpace isPySpace_nl (List.dropWhile isPySpace t)
  have hh0 : h0 ∈ linesCL t := by
    rw [ha1]
    exact List.mem_append_right _ (List.mem_cons_self _ _)
  have hpost0 : ∀ x ∈ post0, x ∈ linesCL t := by
    intro x hx
    rw [ha1]
    exact List.mem_append_right _ (List.mem_cons_of_mem _ hx)
  rw [pyStrip, hb2] at hl
  rcases List.mem_append.mp hl with hl | hl
  · have hmem : l ∈ linesCL (List.dropWhile isPySpace t) := by
      rw [hb1]
      exact List.mem_append_left _ hl
    rw [ha2] at hmem
    rcases List.mem_cons.mp hmem with rfl | hmem
    · exact ⟨h0, hh0, Or.inr (Or.inl rfl)⟩
    · exact ⟨l, hpost0 l hmem, Or.inl rfl⟩
  · have hleq : l = List.rdropWhile isPySpace h := by simpa using hl
    have hmem : h ∈ linesCL (List.dropWhile isPySpace t) := by
      rw [hb1]
      exact List.mem_append_right _ (List.mem_cons_self _ _)
    rw [ha2] at hmem
    rcases List.mem_cons.mp hmem with heq | hmem
    · exact ⟨h0, hh0, Or.inr (Or.inr (Or.inr (by rw [hleq, heq])))⟩
    · exact ⟨h, hpost0 h hmem, Or.inr (Or.inr (Or.inl hleq))⟩

theorem lines_all_class_empty (t2 : List Char)
    (hchk : chkLines classChar true true t2 = true) :
    ∀ l ∈ linesCL t2, l.all classChar = true → l = [] := by
  obtain ⟨htail, hhead⟩ := chkLines_to_lines classChar t2 true true hchk
  intro l hl hall
  cases hlr : linesCL t2 with
  | nil => exact absurd hlr (linesCL_ne_nil t2)
  | cons h0 tl =>
    rw [hlr] at hl
    rcases List.mem_cons.mp hl with rfl | hl2
    · exact (hhead rfl l (by rw [hlr]; rfl) hall).2
    · exact htail l (by rw [hlr]; exact hl2) hall

theorem pyStrip_lines_claim (t2 : List Char)
    (hcls : ∀ l ∈ linesCL t2, l.all classChar = true → l = []) :
    ∀ l ∈ linesCL (pyStrip t2), l.all claimChar = true → l = [] := by
  intro l hl hall
  obtain ⟨l0, hl0, hvar⟩ := linesCL_pyStrip t2 l hl
  have hlclass : ∀ c ∈ l, classChar c = true := fun c hc =>
    claimChar_classChar c (List.all_eq_true.mp hall c hc)
  have hl0class : l0.all classChar = true := by
    rw [List.all_eq_true]
    intro c hc
    rcases hvar with rfl | hv | hv | hv
    · exact hlclass c hc
    · rw [← List.takeWhile_append_dropWhile isPySpace l0] at hc
      rcases List.mem_append.mp hc with hc | hc
      · exact isPySpace_classChar c (List.mem_takeWhile_imp hc)
      · exact hlclass c (hv ▸ hc)
    · rw [← rdropWhile_append_rtakeWhile isPySpace l0] at hc
      rcases List.mem_append.mp hc with hc | hc
      · exact hlclass c (hv ▸ hc)
      · exact isPySpace_classChar c (List.mem_rtakeWhile_imp hc)
    · rw [← List.takeWhile_append_dropWhile isPySpace l0] at hc
      rcases List.mem_append.mp hc with hc | hc
      · exact isPySpace_classChar c (List.mem_takeWhile_imp hc)
      · rw [← rdropWhile_append_rtakeWhile isPySpace (List.dropWhile isPySpace l0)] at hc
        rcases List.mem_append.mp hc with hc | hc
        · exact hlclass c (hv ▸ hc)
        · exact isPySpace_classChar c (List.mem_rtakeWhile_imp hc)
  have hl0nil : l0 = [] := hcls l0 hl0 hl0class
  rcases hvar with rfl | hv | hv | hv
  · exact hl0nil
  · rw [hl0nil] at hv
    simpa using hv
  · rw [hl0nil] at hv
    simpa using hv
  · rw [hl0nil] at hv
    simpa using hv


/-! ### No line of the formatted output starts with a space or tab -/

/-- Scanning check that no line starts with a space or tab; `b` records
whether the current position is a line start. -/
def chkIndent : Bool → List Char → Bool
  | _, [] => true
  | b, c :: rest => (!(b && isHT c)) && chkIndent (c == '\n') rest

theorem chkIndent_nil (b : Bool) : chkIndent b [] = true := rfl

theorem chkIndent_cons (b : Bool) (c : Char) (rest : List Char) :
    chkIndent b (c :: rest) = ((!(b && isHT c)) && chkIndent (c == '\n') rest) := rfl

theorem isHT_isPySpace (c : Char) (h : isHT c = true) : isPySpace c = true := by
  rw [isHT] at h
  simp only [Bool.or_eq_true, beq_iff_eq] at h
  rcases h with rfl | rfl <;> rfl

theorem chkIndent_false_mono : ∀ (v : List Char) (b : Bool),
    chkIndent b v = true → chkIndent false v = true := by
  intro v
  cases v with
  | nil => intro b _; rfl
  | cons c rest =>
    intro b h
    rw [chkIndent_cons] at h ⊢
    rw [Bool.and_eq_true] at h ⊢
    exact ⟨by simp, h.2⟩

theorem chkIndent_drop_right : ∀ (u v : List Char) (b : Bool),
    chkIndent b (u ++ v) = true → chkIndent false v = true := by
  intro u
  induction u with
  | nil => intro v b h; exact chkIndent_false_mono v b h
  | cons c u' ih =>
    intro v b h
    rw [List.cons_append, chkIndent_cons, Bool.and_eq_true] at h
    exact ih v (c == '\n') h.2

theorem chkIndent_take_left : ∀ (u v : List Char) (b : Bool),
    chkIndent b (u ++ v) = true → chkIndent b u = true := by
  intro u
  induction u with
  | nil => intro v b _; rfl
  | cons c u' ih =>
    intro v b h
    rw [List.cons_append, chkIndent_cons, Bool.and_eq_true] at h
    rw [chkIndent_cons, Bool.and_eq_true]
    exact ⟨h.1, ih v (c == '\n') h.2⟩

theorem chkIndent_drop_after_nl : ∀ (t : List Char) (e : Nat) (b : Bool),
    chkIndent b t = true → t.get? e = some '\n' → chkIndent true (t.drop (e + 1)) = true := by
  intro t
  induction t with
  | nil => intro e b _ hg; simp at hg
  | cons c rest ih =>
    intro e b h hg
    rw [chkIndent_cons, Bool.and_eq_true] at h
    cases e with
    | zero =>
      simp only [List.get?, Option.some.injEq] at hg
      subst hg
      rw [show ('\n' == '\n') = true from rfl] at h
      exact h.2
    | succ e' =>
      simp only [List.get?] at hg
      exact ih e' (c == '\n') h.2 hg

theorem chkIndent_no_nl_false : ∀ (l : List Char), '\n' ∉ l → chkIndent false l = true := by
  intro l
  induction l with
  | nil => intro _; rfl
  | cons c rest ih =>
    intro h
    rw [chkIndent_cons, Bool.and_eq_true]
    refine ⟨by simp, ?_⟩
    rw [show (c == '\n') = false from by
      simp only [beq_eq_false_iff_ne, ne_eq]
      intro hcon
      exact h (by rw [← hcon]; exact List.mem_cons_self c rest)]
    exact ih (fun hm => h (List.mem_cons_of_mem c hm))

theorem chkIndent_append_no_nl : ∀ (xs ys : List Char) (b : Bool), '\n' ∉ xs →
    chkIndent b (xs ++ ys) =
      (chkIndent b xs && chkIndent (if xs.isEmpty then b else false) ys) := by
  intro xs
  induction xs with
  | nil => intro ys b _; simp [chkIndent_nil]
  | cons c xs' ih =>
    intro ys b h
    have hc : ¬ c = '\n' := fun hcon => h (by rw [← hcon]; exact List.mem_cons_self c xs')
    rw [List.cons_append, chkIndent_cons, chkIndent_cons,
      show (c == '\n') = false from by simpa using hc,
      ih ys false (fun hm => h (List.mem_cons_of_mem c hm))]
    simp [Bool.and_assoc]

theorem chkIndent_line (l : List Char) (hnl : '\n' ∉ l)
    (hhd : ∀ d, l.head? = some d → isHT d = false) : chkIndent true l = true := by
  cases l with
  | nil => rfl
  | cons c rest =>
    rw [chkIndent_cons, Bool.and_eq_true]
    refine ⟨by rw [hhd c rfl]; rfl, ?_⟩
    rw [show (c == '\n') = false from by
      simpa using fun hcon => hnl (by rw [← hcon]; exact List.mem_cons_self c rest)]
    exact chkIndent_no_nl_false rest (fun hm => hnl (List.mem_cons_of_mem c hm))

theorem unlinesCL_chkIndent : ∀ (ls : List (List Char)),
    (∀ l ∈ ls, '\n' ∉ l) → (∀ l ∈ ls, ∀ d, l.head? = some d → isHT d = false) →
    chkIndent true (unlinesCL ls) = true := by
  intro ls
  induction ls with
  | nil => intro _ _; rfl
  | cons l ls' ih =>
    intro hnl hhd
    cases ls' with
    | nil =>
      exact chkIndent_line l (hnl l (List.mem_cons_self _ _))
        (hhd l (List.mem_cons_self _ _))
    | cons l2 ls'' =>
      rw [show unlinesCL (l :: l2 :: ls'') = l ++ '\n' :: unlinesCL (l2 :: ls'') from rfl]
      rw [chkIndent_append_no_nl _ _ true (hnl l (List.mem_cons_self _ _))]
      rw [Bool.and_eq_true]
      refine ⟨chkIndent_line l (hnl l (List.mem_cons_self _ _))
        (hhd l (List.mem_cons_self _ _)), ?_⟩
      rw [chkIndent_cons, Bool.and_eq_true]
      refine ⟨by rw [show isHT '\n' = false from rfl]; simp, ?_⟩
      rw [show ('\n' == '\n') = true from rfl]
      exact ih (fun x hx => hnl x (List.mem_cons_of_mem l hx))
        (fun x hx => hhd x (List.mem_cons_of_mem l hx))

theorem stripLineIndent_chkIndent (t : List Char) :
    chkIndent true (stripLineIndent t) = true := by
  rw [stripLineIndent]
  apply unlinesCL_chkIndent
  · intro l hl
    obtain ⟨l0, hl0, rfl⟩ := List.mem_map.mp hl
    intro hm
    exact nl_not_mem_linesCL t l0 hl0 ((List.dropWhile_suffix isHT).subset hm)
  · intro l hl d hd
    obtain ⟨l0, hl0, rfl⟩ := List.mem_map.mp hl
    have h2 := List.head?_dropWhile_not isHT l0
    rw [hd] at h2
    exact h2


theorem chkIndent_split_nl (xs z : List Char) (b : Bool)
    (h : chkIndent b (xs ++ '\n' :: z) = true) : chkIndent true z = true := by
  have h2 := chkIndent_drop_right xs ('\n' :: z) b h
  rw [chkIndent_cons, Bool.and_eq_true, show ('\n' == '\n') = true from rfl] at h2
  exact h2.2

theorem chkIndent_emit_scanFalse (n : Nat)
    (ihyp : ∀ (s : List Char) (fuel : Nat), s.length ≤ n → s.length ≤ fuel →
      chkIndent true s = true → chkIndent true (scanBlank fuel true s) = true)
    (c : Char) (rest : List Char) (f : Nat)
    (hnl : ¬ c = '\n') (hrest : rest.length ≤ f) (hrn : rest.length ≤ n)
    (hht : isHT c = false) (htail : chkIndent false rest = true) :
    chkIndent true (c :: scanBlank f false rest) = true := by
  rw [scanBlank_false rest f hrest, chkIndent_cons, Bool.and_eq_true]
  refine ⟨by rw [hht]; simp, ?_⟩
  rw [show (c == '\n') = false from by simpa using hnl]
  rw [chkIndent_append_no_nl _ _ false (by
    intro hm
    simpa using List.mem_takeWhile_imp hm)]
  rw [Bool.and_eq_true]
  refine ⟨chkIndent_no_nl_false _ (by
    intro hm
    simpa using List.mem_takeWhile_imp hm), ?_⟩
  rw [ite_self]
  cases hdw : rest.dropWhile (fun x => x != '\n') with
  | nil => rfl
  | cons w z =>
    have hw : w = '\n' := by
      have h2 := List.head?_dropWhile_not (fun x => x != '\n') rest
      rw [hdw] at h2
      simpa using h2
    subst hw
    show chkIndent false ('\n' :: scanBlank z.length true z) = true
    rw [chkIndent_cons, Bool.and_eq_true]
    refine ⟨by simp, ?_⟩
    rw [show ('\n' == '\n') = true from rfl]
    have hz : z.length < rest.length + 1 := by
      have h1 : (rest.dropWhile (fun x => x != '\n')).length ≤ rest.length :=
        (List.dropWhile_suffix _).length_le
      rw [hdw] at h1
      simp only [List.length_cons] at h1
      omega
    apply ihyp z z.length (by omega) (Nat.le_refl _)
    have hsplit : rest = rest.takeWhile (fun x => x != '\n') ++ '\n' :: z := by
      conv_lhs => rw [← List.takeWhile_append_dropWhile (fun x => x != '\n') rest]
      rw [hdw]
    rw [hsplit] at htail
    exact chkIndent_split_nl _ z false htail

theorem scanBlank_chkIndent : ∀ (n : Nat) (s : List Char) (fuel : Nat),
    s.length ≤ n → s.length ≤ fuel → chkIndent true s = true →
    chkIndent true (scanBlank fuel true s) = true := by
  intro n
  induction n with
  | zero =>
    intro s fuel h _ _
    have hs : s = [] := List.length_eq_zero.mp (by omega)
    subst hs
    rw [scanBlank_nil]
    rfl
  | succ n ih =>
    intro s fuel hn hf hch
    cases s with
    | nil => rw [scanBlank_nil]; rfl
    | cons c rest =>
      simp only [List.length_cons] at hn hf
      cases fuel with
      | zero => omega
      | succ f =>
        rw [scanBlank_succ_cons]
        have hchc := hch
        rw [chkIndent_cons, Bool.and_eq_true] at hchc
        by_cases hcl : classChar c = true
        · rw [if_pos (by simp [hcl])]
          cases he : matchEnd (c :: rest) with
          | some e =>
            show chkIndent true
              (scanBlank f ((c :: rest).get? (e - 1) == some '\n') ((c :: rest).drop e)) = true
            obtain ⟨he1, he2, he3⟩ := matchEnd_some _ e he
            by_cases hflag : ((c :: rest).get? (e - 1) == some '\n') = true
            · rw [hflag]
              have hget : (c :: rest).get? (e - 1) = some '\n' := by simpa using hflag
              have hd := chkIndent_drop_after_nl (c :: rest) (e - 1) true hch hget
              rw [show e - 1 + 1 = e from by omega] at hd
              exact ih ((c :: rest).drop e) f
                (by simp only [List.length_drop, List.length_cons]; omega)
                (by simp only [List.length_drop, List.length_cons]; omega) hd
            · rw [Bool.eq_false_iff.mpr hflag]
              rcases he3 with he3 | he3
              · rw [he3, List.drop_length, scanBlank_nil]
                rfl
              · have hlt : e < rest.length + 1 := by
                  by_contra hge
                  rw [List.get?_eq_getElem?,
                    List.getElem?_eq_none (by simp only [List.length_cons]; omega)] at he3
                  cases he3
                have hdrop : (c :: rest).drop e = '\n' :: (c :: rest).drop (e + 1) := by
                  rw [List.drop_eq_getElem_cons (by simp only [List.length_cons]; omega)]
                  congr 1
                  rw [List.get?_eq_getElem?] at he3
                  exact (List.getElem?_eq_some.mp he3).2
                rw [hdrop, scanBlank_false ('\n' :: (c :: rest).drop (e + 1)) f (by
                  simp only [List.length_cons, List.length_drop]
                  omega)]
                rw [List.takeWhile_cons_of_neg (by simp), List.dropWhile_cons_of_neg (by simp),
                  List.nil_append]
                rw [chkIndent_cons, Bool.and_eq_true]
                refine ⟨by simp [show isHT '\n' = false from rfl], ?_⟩
                rw [show ('\n' == '\n') = true from rfl]
                have hd := chkIndent_drop_after_nl (c :: rest) e true hch he3
                exact ih _ _ (by simp only [List.length_drop, List.length_cons]; omega)
                  (Nat.le_refl _) hd
          | none =>
            show chkIndent true (c :: scanBlank f (c == '\n') rest) = true
            by_cases hnl : c = '\n'
            · subst hnl
              rw [show ('\n' == '\n') = true from rfl, chkIndent_cons, Bool.and_eq_true]
              refine ⟨by simp [show isHT '\n' = false from rfl], ?_⟩
              rw [show ('\n' == '\n') = true from rfl] at hchc
              exact ih rest f (by omega) (by omega) hchc.2
            · rw [show (c == '\n') = false from by simpa using hnl]
              apply chkIndent_emit_scanFalse n ih c rest f hnl (by omega) (by omega)
              · rcases Bool.eq_false_or_eq_true (isHT c) with h | h
                · rw [h] at hchc
                  exact absurd hchc.1 (by decide)
                · exact h
              · rw [show (c == '\n') = false from by simpa using hnl] at hchc
                exact hchc.2
        · rw [if_neg (by simp [hcl])]
          have hnl : ¬ c = '\n' := by
            intro hcon
            rw [hcon] at hcl
            exact hcl (by rw [classChar, isPySpace]; simp)
          rw [show (c == '\n') = false from by simpa using hnl]
          apply chkIndent_emit_scanFalse n ih c rest f hnl (by omega) (by omega)
          · rcases Bool.eq_false_or_eq_true (isHT c) with h | h
            · rw [h] at hchc
              exact absurd hchc.1 (by decide)
            · exact h
          · rw [show (c == '\n') = false from by simpa using hnl] at hchc
            exact hchc.2

theorem collapseGo_chkIndent : ∀ (s : List Char) (k : Nat) (b : Bool),
    (1 ≤ k → b = true) → chkIndent b s = true → chkIndent b (collapseGo k s) = true := by
  intro s
  induction s with
  | nil =>
    intro k b _ h
    rw [show collapseGo k [] = [] from rfl]
    exact h
  | cons c rest ih =>
    intro k b hk h
    rw [collapseGo_cons]
    rw [chkIndent_cons, Bool.and_eq_true] at h
    by_cases hc : c = '\n'
    · subst hc
      rw [show ('\n' == '\n') = true from rfl] at h
      rw [if_pos rfl]
      by_cases h2 : 2 ≤ k
      · rw [if_pos h2, hk (by omega)]
        exact ih k true (fun _ => rfl) h.2
      · rw [if_neg h2, chkIndent_cons, Bool.and_eq_true]
        refine ⟨by simp [show isHT '\n' = false from rfl], ?_⟩
        rw [show ('\n' == '\n') = true from rfl]
        exact ih (k + 1) true (fun _ => rfl) h.2
    · rw [if_neg hc, chkIndent_cons, Bool.and_eq_true]
      rw [show (c == '\n') = false from by simpa using hc] at h ⊢
      exact ⟨h.1, ih 0 false (by omega) h.2⟩

theorem pyStrip_chkIndent (t : List Char) (h : chkIndent true t = true) :
    chkIndent true (pyStrip t) = true := by
  rw [pyStrip]
  have h1 : chkIndent true (List.dropWhile isPySpace t) = true := by
    cases hd : List.dropWhile isPySpace t with
    | nil => rfl
    | cons d rest =>
      obtain ⟨u, hu⟩ := List.dropWhile_suffix (l := t) isPySpace
      rw [hd] at hu
      have h2 := chkIndent_drop_right u (d :: rest) true (by rw [hu]; exact h)
      rw [chkIndent_cons, Bool.and_eq_true] at h2 ⊢
      refine ⟨?_, h2.2⟩
      have hdws : isPySpace d = false := by
        have h3 := List.head?_dropWhile_not isPySpace t
        rw [hd] at h3
        simpa using h3
      have : isHT d = false := by
        rcases Bool.eq_false_or_eq_true (isHT d) with hh | hh
        · rw [isHT_isPySpace d hh] at hdws
          cases hdws
        · exact hh
      rw [this]
      simp
  obtain ⟨u, hu⟩ := List.rdropWhile_prefix isPySpace (List.dropWhile isPySpace t)
  rw [← hu] at h1
  exact chkIndent_take_left _ u true h1


/-! ### Newline runs, strip ends, and the main formatter theorem -/

theorem collapseGo_triple : ∀ (s : List Char) (k : Nat),
    (¬ ['\n', '\n', '\n'] <:+: collapseGo k s) ∧
    (1 ≤ k → ¬ ['\n', '\n'] <+: collapseGo k s) ∧
    (2 ≤ k → ¬ ['\n'] <+: collapseGo k s) := by
  intro s
  induction s with
  | nil =>
    intro k
    rw [show collapseGo k [] = [] from rfl]
    refine ⟨?_, fun _ => ?_, fun _ => ?_⟩ <;> simp
  | cons c rest ih =>
    intro k
    rw [collapseGo_cons]
    by_cases hc : c = '\n'
    · rw [if_pos hc]
      by_cases h2 : 2 ≤ k
      · rw [if_pos h2]
        obtain ⟨g1, g2, g3⟩ := ih k
        exact ⟨g1, g2, g3⟩
      · rw [if_neg h2]
        obtain ⟨g1, g2, g3⟩ := ih (k + 1)
        refine ⟨?_, ?_, ?_⟩
        · intro hin
          rcases List.infix_cons_iff.mp hin with hpre | hin
          · rw [List.cons_prefix_cons] at hpre
            exact g2 (by omega) hpre.2
          · exact g1 hin
        · intro hk hpre
          rw [List.cons_prefix_cons] at hpre
          exact g3 (by omega) hpre.2
        · intro hk _
          omega
    · rw [if_neg hc]
      obtain ⟨g1, _, _⟩ := ih 0
      refine ⟨?_, fun _ hpre => ?_, fun _ hpre => ?_⟩
      · intro hin
        rcases List.infix_cons_iff.mp hin with hpre | hin
        · rw [List.cons_prefix_cons] at hpre
          exact hc hpre.1.symm
        · exact g1 hin
      · rw [List.cons_prefix_cons] at hpre
        exact hc hpre.1.symm
      · rw [List.cons_prefix_cons] at hpre
        exact hc hpre.1.symm

theorem pyStrip_within (t : List Char) : pyStrip t <:+: t :=
  (List.rdropWhile_prefix _ _).isInfix.trans (List.dropWhile_suffix _).isInfix

theorem pyStrip_head (t : List Char) (c : Char) (h : (pyStrip t).head? = some c) :
    isPySpace c = false := by
  rw [pyStrip] at h
  obtain ⟨u, hu⟩ := List.rdropWhile_prefix isPySpace (List.dropWhile isPySpace t)
  cases hps : List.rdropWhile isPySpace (List.dropWhile isPySpace t) with
  | nil => rw [hps] at h; simp at h
  | cons d w =>
    rw [hps] at h hu
    simp only [List.head?_cons, Option.some.injEq] at h
    have hh : (List.dropWhile isPySpace t).head? = some c := by
      rw [← hu, ← h]
      rfl
    have h3 := List.head?_dropWhile_not isPySpace t
    rw [hh] at h3
    exact h3

theorem pyStrip_last (t : List Char) (c : Char) (h : (pyStrip t).getLast? = some c) :
    isPySpace c = false := by
  rw [pyStrip] at h
  have hne : List.rdropWhile isPySpace (List.dropWhile isPySpace t) ≠ [] := by
    intro hcon
    rw [hcon] at h
    simp at h
  have h2 := List.rdropWhile_last_not (l := List.dropWhile isPySpace t) (p := isPySpace) hne
  rw [List.getLast?_eq_getLast _ hne, Option.some.injEq] at h
  rw [← h]
  exact Bool.eq_false_iff.mpr h2

theorem chkIndent_to_lines : ∀ (t : List Char) (b : Bool), chkIndent b t = true →
    (∀ l ∈ (linesCL t).tail, ∀ d, l.head? = some d → isHT d = false) ∧
    (b = true → ∀ h0, (linesCL t).head? = some h0 → ∀ d, h0.head? = some d →
      isHT d = false) := by
  intro t
  induction t with
  | nil =>
    intro b _
    refine ⟨by intro l hl; simp [linesCL] at hl, ?_⟩
    intro _ h0 hh0 d hd
    rw [show linesCL ([] : List Char) = [[]] from rfl] at hh0
    simp only [List.head?_cons, Option.some.injEq] at hh0
    rw [← hh0] at hd
    simp at hd
  | cons c rest ih =>
    intro b h
    rw [chkIndent_cons, Bool.and_eq_true] at h
    by_cases hc : c = '\n'
    · subst hc
      rw [show ('\n' == '\n') = true from rfl] at h
      obtain ⟨ihtail, ihhead⟩ := ih true h.2
      rw [linesCL_cons, if_pos rfl]
      refine ⟨?_, ?_⟩
      · intro l hl d hd
        simp only [List.tail_cons] at hl
        cases hlr : linesCL rest with
        | nil => exact absurd hlr (linesCL_ne_nil rest)
        | cons h0 tl =>
          rw [hlr] at hl
          rcases List.mem_cons.mp hl with rfl | hl
          · exact ihhead rfl l (by rw [hlr]; rfl) d hd
          · exact ihtail l (by rw [hlr]; exact hl) d hd
      · intro _ h0 hh0 d hd
        simp only [List.head?_cons, Option.some.injEq] at hh0
        rw [← hh0] at hd
        simp at hd
    · rw [show (c == '\n') = false from by simpa using hc] at h
      obtain ⟨ihtail, _⟩ := ih false h.2
      cases hlr : linesCL rest with
      | nil => exact absurd hlr (linesCL_ne_nil rest)
      | cons h1 tl =>
        have hlines : linesCL (c :: rest) = (c :: h1) :: tl := by
          rw [linesCL_cons, if_neg hc, hlr]
        rw [hlines]
        refine ⟨?_, ?_⟩
        · intro l hl d hd
          exact ihtail l (by rw [hlr]; exact hl) d hd
        · intro hb h0 hh0 d hd
          simp only [List.head?_cons, Option.some.injEq] at hh0
          rw [← hh0] at hd
          simp only [List.head?_cons, Option.some.injEq] at hd
          rw [← hd]
          subst hb
          rcases Bool.eq_false_or_eq_true (isHT c) with hh | hh
          · rw [hh] at h
            exact absurd h.1 (by decide)
          · exact hh

/-- C3: for every 4-tuple of input strings, the formatted output has no
line beginning with a space or tab, no non-empty line made only of
whitespace or the listed invisible characters (zero-width
space/non-joiner/joiner, byte-order mark, soft hyphen), no run of three
or more consecutive newlines, and no leading or trailing whitespace. -/
theorem format_post_text_normalized (sender subject date body : List Char) :
    (∀ l ∈ linesCL (format_post_text sender subject date body),
       ∀ d, l.head? = some d → isHT d = false) ∧
    (∀ l ∈ linesCL (format_post_text sender subject date body),
       l.all claimChar = true → l = []) ∧
    (¬ ['\n', '\n', '\n'] <:+: format_post_text sender subject date body) ∧
    (∀ d, (format_post_text sender subject date body).head? = some d →
       isPySpace d = false) ∧
    (∀ d, (format_post_text sender subject date body).getLast? = some d →
       isPySpace d = false) := by
  have hfmt : format_post_text sender subject date body =
      pyStrip (collapseNewlines (blankInvisibleLines
        (stripLineIndent (headerText sender subject date body)))) := rfl
  rw [hfmt]
  have hind1 : chkIndent true (stripLineIndent (headerText sender subject date body)) = true :=
    stripLineIndent_chkIndent _
  have hind2 : chkIndent true
      (blankInvisibleLines (stripLineIndent (headerText sender subject date body))) = true := by
    rw [blankInvisibleLines]
    exact scanBlank_chkIndent _ _ _ (Nat.le_refl _) (Nat.le_refl _) hind1
  have hind3 : chkIndent true (collapseNewlines
      (blankInvisibleLines (stripLineIndent (headerText sender subject date body)))) = true := by
    rw [collapseNewlines]
    exact collapseGo_chkIndent _ 0 true (fun _ => rfl) hind2
  have hind4 := pyStrip_chkIndent _ hind3
  have hcls1 : chkLines classChar true true
      (blankInvisibleLines (stripLineIndent (headerText sender subject date body))) = true := by
    rw [blankInvisibleLines]
    exact scanBlank_chk _ _ _ (Nat.le_refl _) (Nat.le_refl _)
  have hcls2 : chkLines classChar true true (collapseNewlines
      (blankInvisibleLines (stripLineIndent (headerText sender subject date body)))) = true := by
    rw [collapseNewlines]
    exact collapseGo_chk classChar _ 0 true true (Or.inl rfl) hcls1
  have hb := pyStrip_lines_claim _ (lines_all_class_empty _ hcls2)
  have hc3 : ¬ ['\n', '\n', '\n'] <:+: collapseNewlines
      (blankInvisibleLines (stripLineIndent (headerText sender subject date body))) := by
    rw [collapseNewlines]
    exact (collapseGo_triple _ 0).1
  refine ⟨?_, hb, ?_, ?_, ?_⟩
  · obtain ⟨htail, hhead⟩ := chkIndent_to_lines _ true hind4
    intro l hl d hd
    cases hlr : linesCL (pyStrip (collapseNewlines (blankInvisibleLines
        (stripLineIndent (headerText sender subject date body))))) with
    | nil => exact absurd hlr (linesCL_ne_nil _)
    | cons h0 tl =>
      rw [hlr] at hl
      rcases List.mem_cons.mp hl with rfl | hl
      · exact hhead rfl l (by rw [hlr]; rfl) d hd
      · exact htail l (by rw [hlr]; exact hl) d hd
  · intro hin
    exact hc3 (hin.trans (pyStrip_within _))
  · exact fun d => pyStrip_head _ d
  · exact fun d => pyStrip_last _ d


/-! ### Non-class characters survive the pipeline (claim C10) -/

theorem filter_notClass_scanBlank : ∀ (fuel : Nat) (flag : Bool) (s : List Char),
    s.length ≤ fuel →
    (scanBlank fuel flag s).filter (fun c => !classChar c) =
      s.filter (fun c => !classChar c) := by
  intro fuel
  induction fuel with
  | zero =>
    intro flag s h
    have hs : s = [] := List.length_eq_zero.mp (by omega)
    subst hs
    rfl
  | succ f ih =>
    intro flag s h
    cases s with
    | nil => rfl
    | cons c rest =>
      simp only [List.length_cons] at h
      rw [scanBlank_succ_cons]
      by_cases hcl : (flag && classChar c) = true
      · rw [if_pos hcl]
        cases he : matchEnd (c :: rest) with
        | some e =>
          show (scanBlank f ((c :: rest).get? (e - 1) == some '\n')
            ((c :: rest).drop e)).filter (fun c => !classChar c) = _
          obtain ⟨he1, he2, _⟩ := matchEnd_some _ e he
          rw [ih _ _ (by simp only [List.length_drop, List.length_cons]; omega)]
          have hsplit : c :: rest = (c :: rest).take e ++ (c :: rest).drop e :=
            (List.take_append_drop e (c :: rest)).symm
          have htake : ((c :: rest).take e).filter (fun x => !classChar x) = [] :=
            List.filter_eq_nil_iff.mpr (by
              intro a ha
              rw [mem_take_class (c :: rest) e he2 a ha]
              simp)
          conv_rhs => rw [hsplit]
          rw [List.filter_append, htake, List.nil_append]
        | none =>
          show (c :: scanBlank f (c == '\n') rest).filter (fun c => !classChar c) = _
          rw [List.filter_cons, List.filter_cons, ih _ _ (by omega)]
      · rw [if_neg hcl]
        rw [List.filter_cons, List.filter_cons, ih _ _ (by omega)]

theorem filter_notClass_collapseGo : ∀ (s : List Char) (k : Nat),
    (collapseGo k s).filter (fun c => !classChar c) =
      s.filter (fun c => !classChar c) := by
  intro s
  induction s with
  | nil => intro k; rfl
  | cons c rest ih =>
    intro k
    rw [collapseGo_cons]
    by_cases hc : c = '\n'
    · subst hc
      have hnc : (!classChar '\n') = false := rfl
      rw [if_pos rfl]
      by_cases h2 : 2 ≤ k
      · rw [if_pos h2, ih k, List.filter_cons, hnc]
        simp
      · rw [if_neg h2, List.filter_cons, List.filter_cons, hnc]
        simp only [Bool.false_eq_true, if_false]
        exact ih (k + 1)
    · rw [if_neg hc, List.filter_cons, List.filter_cons, ih 0]

theorem filter_notClass_unlinesCL : ∀ (ls : List (List Char)),
    (unlinesCL ls).filter (fun c => !classChar c) =
      (ls.map (fun l => l.filter (fun c => !classChar c))).flatten := by
  intro ls
  induction ls with
  | nil => rfl
  | cons l ls' ih =>
    cases ls' with
    | nil => simp [show unlinesCL [l] = l from rfl]
    | cons l2 ls'' =>
      rw [show unlinesCL (l :: l2 :: ls'') = l ++ '\n' :: unlinesCL (l2 :: ls'') from rfl,
        List.filter_append, List.filter_cons, show (!classChar '\n') = false from rfl]
      simp only [Bool.false_eq_true, if_false]
      rw [ih]
      simp [List.flatten_cons]

theorem filter_notClass_dropWhileHT (l : List Char) :
    (List.dropWhile isHT l).filter (fun c => !classChar c) =
      l.filter (fun c => !classChar c) := by
  have htake : (List.takeWhile isHT l).filter (fun c => !classChar c) = [] :=
    List.filter_eq_nil_iff.mpr (by
      intro a ha
      rw [isPySpace_classChar a (isHT_isPySpace a (List.mem_takeWhile_imp ha))]
      simp)
  conv_rhs => rw [← List.takeWhile_append_dropWhile isHT l]
  rw [List.filter_append, htake, List.nil_append]

theorem filter_notClass_stripLineIndent (t : List Char) :
    (stripLineIndent t).filter (fun c => !classChar c) =
      t.filter (fun c => !classChar c) := by
  rw [stripLineIndent, filter_notClass_unlinesCL, List.map_map]
  have : (fun l => List.filter (fun c => !classChar c) l) ∘ List.dropWhile isHT =
      fun l => List.filter (fun c => !classChar c) l := by
    funext l
    exact filter_notClass_dropWhileHT l
  rw [this]
  conv_rhs => rw [← unlinesCL_linesCL t]
  rw [filter_notClass_unlinesCL]


/-! ### The header prefix survives the pipeline (claim C10) -/

theorem linesCL_append_no_nl_first : ∀ (xs r : List Char), (∀ c ∈ xs, ¬ c = '\n') →
    ∃ h tl, linesCL r = h :: tl ∧ linesCL (xs ++ r) = (xs ++ h) :: tl := by
  intro xs
  induction xs with
  | nil =>
    intro r _
    cases hlr : linesCL r with
    | nil => exact absurd hlr (linesCL_ne_nil r)
    | cons h tl => exact ⟨h, tl, rfl, by rw [List.nil_append, hlr]; rfl⟩
  | cons c xs' ih =>
    intro r hnl
    obtain ⟨h, tl, h1, h2⟩ := ih r (fun x hx => hnl x (List.mem_cons_of_mem c hx))
    refine ⟨h, tl, h1, ?_⟩
    rw [List.cons_append, linesCL_cons, if_neg (hnl c (List.mem_cons_self c xs')), h2]
    rfl

theorem unlinesCL_head : ∀ (l : List Char) (ls : List (List Char)),
    ∃ r, unlinesCL (l :: ls) = l ++ r := by
  intro l ls
  cases ls with
  | nil => exact ⟨[], (List.append_nil l).symm⟩
  | cons l2 ls' => exact ⟨'\n' :: unlinesCL (l2 :: ls'), rfl⟩

theorem stripLineIndent_prefix (R : List Char) :
    ∃ r, stripLineIndent ("📧 From: ".data ++ R) = "📧 From: ".data ++ r := by
  obtain ⟨h, tl, _, h2⟩ := linesCL_append_no_nl_first ("📧 From: ".data) R (by decide)
  rw [stripLineIndent, h2, List.map_cons]
  have hdw : List.dropWhile isHT ("📧 From: ".data ++ h) = "📧 From: ".data ++ h := by
    rw [List.dropWhile_append,
      show List.dropWhile isHT ("📧 From: ".data) = "📧 From: ".data from by decide,
      if_neg (by decide)]
  rw [hdw]
  obtain ⟨r2, hr2⟩ := unlinesCL_head ("📧 From: ".data ++ h) (tl.map (List.dropWhile isHT))
  exact ⟨h ++ r2, by rw [hr2, List.append_assoc]⟩

theorem blankInvisibleLines_prefix (R : List Char) :
    ∃ r, blankInvisibleLines ("📧 From: ".data ++ R) = "📧 From: ".data ++ r := by
  have hP9 : ("📧 From: ".data : List Char) = '📧' :: " From: ".data := by decide
  rw [blankInvisibleLines, hP9, List.cons_append, List.length_cons, scanBlank_succ_cons,
    if_neg (by decide)]
  rw [show ('📧' == '\n') = false from by decide]
  rw [scanBlank_false _ _ (Nat.le_refl _)]
  rw [List.takeWhile_append,
    if_pos (by decide : (List.takeWhile (fun c => c != '\n') (" From: ".data)).length =
      (" From: ".data : List Char).length)]
  rw [List.dropWhile_append, if_pos (by decide)]
  refine ⟨List.takeWhile (fun c => c != '\n') R ++
    (match List.dropWhile (fun c => c != '\n') R with
     | [] => []
     | _ :: z => '\n' :: scanBlank z.length true z), ?_⟩
  simp [List.append_assoc, show (" From: ".data : List Char) = ' ' :: ['F', 'r', 'o', 'm', ':', ' '] from by decide]

theorem collapseGo_append_no_nl : ∀ (xs r : List Char), '\n' ∉ xs →
    collapseGo 0 (xs ++ r) = xs ++ collapseGo 0 r := by
  intro xs
  induction xs with
  | nil => intro r _; rfl
  | cons c xs' ih =>
    intro r h
    have hc : ¬ c = '\n' := fun hcon => h (by rw [← hcon]; exact List.mem_cons_self c xs')
    rw [List.cons_append, collapseGo_cons, if_neg hc,
      ih r (fun hm => h (List.mem_cons_of_mem c hm)), List.cons_append]

theorem collapseNewlines_prefix (R : List Char) :
    ∃ r, collapseNewlines ("📧 From: ".data ++ R) = "📧 From: ".data ++ r := by
  rw [collapseNewlines, collapseGo_append_no_nl _ R (by decide)]
  exact ⟨_, rfl⟩

theorem rdropWhile_append_cons (p : Char → Bool) (x y : List Char) (c : Char)
    (hc : p c = false) :
    List.rdropWhile p (x ++ c :: y) = x ++ c :: List.rdropWhile p y := by
  rw [List.rdropWhile, show (x ++ c :: y).reverse = (y.reverse ++ [c]) ++ x.reverse from by simp,
    List.dropWhile_append]
  have h1 : List.dropWhile p (y.reverse ++ [c]) = List.dropWhile p y.reverse ++ [c] := by
    rw [List.dropWhile_append]
    by_cases he : (List.dropWhile p y.reverse).isEmpty = true
    · rw [if_pos he, List.dropWhile_cons_of_neg (by simp [hc]), List.isEmpty_iff.mp he,
        List.nil_append]
    · rw [if_neg he]
  rw [h1, if_neg (by simp)]
  simp [List.rdropWhile]

theorem pyStrip_prefix (R : List Char) (d : Char) (hd : d ∈ R) (hdws : isPySpace d = false) :
    ∃ r, pyStrip ("📧 From: ".data ++ R) = "📧 From: ".data ++ r := by
  rw [pyStrip, List.dropWhile_append,
    show List.dropWhile isPySpace ("📧 From: ".data) = "📧 From: ".data from by decide,
    if_neg (by decide)]
  obtain ⟨a, b, rfl⟩ := List.append_of_mem hd
  rw [show "📧 From: ".data ++ (a ++ d :: b) = ("📧 From: ".data ++ a) ++ d :: b from by
    rw [List.append_assoc]]
  rw [rdropWhile_append_cons isPySpace _ b d hdws]
  exact ⟨a ++ d :: List.rdropWhile isPySpace b, by rw [List.append_assoc]⟩


theorem postLoop_error_api {H E : Type} (f : Nat → Except E H) (root : H) :
    ∀ (rest : List (List Char)) (k : Nat) (h : H) (pe : PubError E),
      (postLoop f root k h rest).2 = .error pe → ∃ e, pe = .api e := by
  intro rest
  induction rest with
  | nil => intro k h pe hcon; simp [postLoop] at hcon
  | cons c cs ih =>
    intro k h pe hcon
    cases hf : f k with
    | ok h' =>
      rw [postLoop] at hcon
      rw [hf] at hcon
      exact ih (k + 1) h' pe hcon
    | error e =>
      rw [postLoop] at hcon
      rw [hf] at hcon
      simp only [Except.error.injEq] at hcon
      exact ⟨e, hcon.symm⟩

theorem split_text_ne_nil (t : List Char) (h : t ≠ []) : split_text t 300 ≠ [] := by
  cases t with
  | nil => exact absurd rfl h
  | cons c rest =>
    rw [split_text, List.length_cons, splitGo, if_pos (by simp)]
    simp

/-- C10: the formatted text always keeps the literal header prefix
`📧 From: `, so it is non-empty, `split_text` returns at least one chunk,
and the empty-content error of `post_chunks` is unreachable through
`post_to_bluesky`. -/
theorem post_to_bluesky_no_empty_error {H L E : Type} (login : Except L Unit)
    (f : Nat → Except E H) (sender subject date body : List Char) :
    ("📧 From: ".data <+: format_post_text sender subject date body) ∧
    format_post_text sender subject date body ≠ [] ∧
    split_text (format_post_text sender subject date body) 300 ≠ [] ∧
    (post_chunks f (format_post_text sender subject date body)).2 ≠
      .error .noContent ∧
    (post_to_bluesky login f sender subject date body).2 ≠ .error (.pub .noContent) := by
  have hheader : headerText sender subject date body =
      "📧 From: ".data ++ (sender ++ ("\nSubject: ".data ++ (subject ++
        ("\nSent: ".data ++ (date ++ '\n' :: body))))) := by
    rw [headerText]
    simp [List.append_assoc]
  obtain ⟨r1, hr1⟩ := stripLineIndent_prefix (sender ++ ("\nSubject: ".data ++ (subject ++
    ("\nSent: ".data ++ (date ++ '\n' :: body)))))
  obtain ⟨r2, hr2⟩ := blankInvisibleLines_prefix r1
  obtain ⟨r3, hr3⟩ := collapseNewlines_prefix r2
  have hchain : collapseNewlines (blankInvisibleLines (stripLineIndent
      (headerText sender subject date body))) = "📧 From: ".data ++ r3 := by
    rw [hheader, hr1, hr2, hr3]
  have hfil : (collapseNewlines (blankInvisibleLines (stripLineIndent
      (headerText sender subject date body)))).filter (fun c => !classChar c) =
      (headerText sender subject date body).filter (fun c => !classChar c) := by
    rw [collapseNewlines, filter_notClass_collapseGo, blankInvisibleLines,
      filter_notClass_scanBlank _ _ _ (Nat.le_refl _), filter_notClass_stripLineIndent]
  have hS : 'S' ∈ r3.filter (fun c => !classChar c) := by
    rw [hchain, hheader, List.filter_append, List.filter_append] at hfil
    rw [List.append_cancel_left hfil]
    apply List.mem_filter.mpr
    refine ⟨?_, by decide⟩
    exact List.mem_append_right sender (List.mem_append_left _ (by decide))
  obtain ⟨hSr3, _⟩ := List.mem_filter.mp hS
  obtain ⟨r4, hr4⟩ := pyStrip_prefix r3 'S' hSr3 (by decide)
  have hfmt : format_post_text sender subject date body =
      pyStrip ("📧 From: ".data ++ r3) := by
    show pyStrip (collapseNewlines (blankInvisibleLines (stripLineIndent
      (headerText sender subject date body)))) = _
    rw [hchain]
  have hpre : "📧 From: ".data <+: format_post_text sender subject date body := by
    rw [hfmt, hr4]
    exact ⟨r4, rfl⟩
  have hne : format_post_text sender subject date body ≠ [] := by
    intro hcon
    rw [hcon] at hpre
    simpa using hpre.length_le
  have hsplit := split_text_ne_nil _ hne
  have hpc : (post_chunks f (format_post_text sender subject date body)).2 ≠
      .error .noContent := by
    rw [post_chunks]
    cases hc : split_text (format_post_text sender subject date body) 300 with
    | nil => exact absurd hc hsplit
    | cons c0 cs =>
      cases hf : f 0 with
      | error e => simp [post_chunks_loop, hf]
      | ok h0 =>
        rw [post_chunks_loop]
        rw [hf]
        simp only
        cases hr : (postLoop f h0 1 h0 cs).2 with
        | ok u => simp [hr]
        | error pe =>
          obtain ⟨e, rfl⟩ := postLoop_error_api f h0 cs 1 h0 pe hr
          simp [hr]
  refine ⟨hpre, hne, hsplit, hpc, ?_⟩
  cases login with
  | error l => simp [post_to_bluesky]
  | ok u =>
    rw [post_to_bluesky]
    simp only
    cases hr : (post_chunks f (format_post_text sender subject date body)).2 with
    | ok n =>
      show Except.ok n ≠ Except.error (BotError.pub PubError.noContent)
      simp
    | error e =>
      show Except.error (BotError.pub e) ≠ Except.error (BotError.pub PubError.noContent)
      simp only [ne_eq, Except.error.injEq, BotError.pub.injEq]
      intro hcon
      rw [hcon] at hr
      exact hpc hr

end BlueskyPost
